import Mathlib

/-!
Verification development for the attendance record store of the
Smart_Attendance_QA repository (`src/attendance.py`, class `AttendanceTracker`).

The store is a Python dict from employee id (int) to a dict from normalized
date string to status string.  Python dicts are modelled as association lists
in insertion order with unique keys; `dictGet`, `dictSet`, `dictDel` model
lookup, assignment and `del`.  Validation errors (the `ValueError`s raised by
`_validate_emp_id`, `_validate_date`, `_validate_status`) are modelled by the
type `AttErr`; every mutating method returns the pair of its outcome and the
store after the call, so that "store unchanged on failure" is expressible.

Date parsing models CPython's `datetime.strptime(date, "%Y-%m-%d")` followed
by `.date().isoformat()`: `%Y` matches exactly four digits, `%m` and `%d`
match one or two digits (`1[0-2]|0[1-9]|[1-9]` resp. `3[01]|[12]\d|0[1-9]|[1-9]`),
the whole string must be consumed, and the resulting (year, month, day) must
be a real proleptic-Gregorian calendar date with year between 1 and 9999;
`isoformat` re-renders it zero padded.  (Abstraction: only ASCII digits are
modelled; CPython's regex module would additionally accept non-ASCII decimal
digits, which no claim depends on.)
-/

set_option autoImplicit false

namespace SmartAttendance

/-- Python dict lookup `d.get(k)` / `d[k]`: the value of the unique matching
key (modelled as the first match of the association list). -/
def dictGet {α β : Type} [DecidableEq α] (k : α) : List (α × β) → Option β
  | [] => none
  | p :: rest => if p.1 = k then some p.2 else dictGet k rest

/-- Python dict assignment `d[k] = v`: replace the value in place when the key
is present, otherwise append the new pair at the end (insertion order). -/
def dictSet {α β : Type} [DecidableEq α] (k : α) (v : β) : List (α × β) → List (α × β)
  | [] => [(k, v)]
  | p :: rest => if p.1 = k then (k, v) :: rest else p :: dictSet k v rest

/-- Python `del d[k]`: remove the entry with the given key. -/
def dictDel {α β : Type} [DecidableEq α] (k : α) : List (α × β) → List (α × β)
  | [] => []
  | p :: rest => if p.1 = k then rest else p :: dictDel k rest

/-- Inner mapping of one employee: normalized date string to status string. -/
abbrev Inner := List (String × String)

/-- The store `self.records`: employee id to inner mapping. -/
abbrev Store := List (Int × Inner)

/-- The two-level lookup `self.records[emp_id][date]`, as an observation. -/
def lookup2 (e : Int) (d : String) (st : Store) : Option String :=
  (dictGet e st).bind (fun m => dictGet d m)

/-- Total number of (employee, date, status) records in the store. -/
def storeSize (st : Store) : Nat :=
  (st.map (fun q => q.2.length)).sum

/-- Validation failures of `AttendanceTracker`; the spec names them
`InvalidEmployeeId`, `InvalidDateFormat` and `InvalidStatus`. -/
inductive AttErr : Type where
  | invalidEmployeeId : AttErr
  | invalidDateFormat : AttErr
  | invalidStatus : AttErr
deriving DecidableEq

/-- Numeric value of an ASCII digit character. -/
def digitVal (c : Char) : Nat := c.toNat - 48

/-- The ASCII digit character of a value below ten. -/
def digitChar (n : Nat) : Char := Char.ofNat (48 + n)

/-- Model of the strptime tokens `%m` (with `hi = 12`) and `%d` (with
`hi = 31`): one digit `1`..`9`, or two digits whose value is `1`..`hi`
(the CPython patterns `1[0-2]|0[1-9]|[1-9]` and `3[01]|[12]\d|0[1-9]|[1-9]`). -/
def twoDigitToken (hi : Nat) : List Char → Option Nat
  | [c] =>
    if c.isDigit ∧ digitVal c ≠ 0 then some (digitVal c) else none
  | [c₁, c₂] =>
    if c₁.isDigit ∧ c₂.isDigit then
      let v := 10 * digitVal c₁ + digitVal c₂
      if 1 ≤ v ∧ v ≤ hi then some v else none
    else none
  | _ => none

/-- Split a character list at its first dash, the literal `-` separators of
the format string `%Y-%m-%d` (the digit tokens never contain a dash). -/
def splitAtDash : List Char → Option (List Char × List Char)
  | [] => none
  | c :: rest =>
    if c = '-' then some ([], rest)
    else
      match splitAtDash rest with
      | some (l, r) => some (c :: l, r)
      | none => none

/-- Gregorian leap-year rule used by `datetime.date`. -/
def isLeapYear (y : Nat) : Bool :=
  y % 4 = 0 ∧ (y % 100 ≠ 0 ∨ y % 400 = 0)

/-- Number of days of a month, as validated by the `datetime.date` constructor. -/
def daysInMonth (y m : Nat) : Nat :=
  if m = 2 then (if isLeapYear y then 29 else 28)
  else if m = 4 ∨ m = 6 ∨ m = 9 ∨ m = 11 then 30
  else 31

/-- Calendar validity enforced by the `datetime.date` constructor
(`MINYEAR = 1`, `MAXYEAR = 9999`). -/
def isRealDate (y m d : Nat) : Bool :=
  1 ≤ y ∧ y ≤ 9999 ∧ 1 ≤ m ∧ m ≤ 12 ∧ 1 ≤ d ∧ d ≤ daysInMonth y m

/-- Model of `datetime.strptime(s, "%Y-%m-%d").date()`: exactly four year
digits, a dash, a `%m` token, a dash, a `%d` token consuming the rest of the
string, and the triple must be a real calendar date. -/
def parseDateChars : List Char → Option (Nat × Nat × Nat)
  | c₁ :: c₂ :: c₃ :: c₄ :: c₅ :: rest =>
    if c₅ = '-' ∧ c₁.isDigit ∧ c₂.isDigit ∧ c₃.isDigit ∧ c₄.isDigit then
      let y := 1000 * digitVal c₁ + 100 * digitVal c₂ + 10 * digitVal c₃ + digitVal c₄
      match splitAtDash rest with
      | some (mtok, dtok) =>
        match twoDigitToken 12 mtok, twoDigitToken 31 dtok with
        | some m, some d => if isRealDate y m d then some (y, m, d) else none
        | _, _ => none
      | none => none
    else none
  | _ => none

/-- Two-digit zero-padded rendering (for `n < 100`). -/
def pad2 (n : Nat) : List Char := [digitChar (n / 10), digitChar (n % 10)]

/-- Four-digit zero-padded rendering (for `n < 10000`). -/
def pad4 (n : Nat) : List Char :=
  [digitChar (n / 1000), digitChar (n / 100 % 10), digitChar (n / 10 % 10), digitChar (n % 10)]

/-- Characters of `date.isoformat()`: `YYYY-MM-DD`, zero padded. -/
def isoDateChars (y m d : Nat) : List Char :=
  pad4 y ++ '-' :: (pad2 m ++ '-' :: pad2 d)

/-- The canonical rendering `date.isoformat()` as a string. -/
def isoDate (y m d : Nat) : String := ⟨isoDateChars y m d⟩

/-- A string is a canonical `YYYY-MM-DD` calendar date: it parses and its
canonical re-rendering is the string itself. -/
def isCanonicalDate (s : String) : Bool :=
  match parseDateChars s.data with
  | some (y, m, d) => isoDate y m d = s
  | none => false

/-- The status vocabulary `AttendanceTracker.VALID_STATUSES`. -/
def VALID_STATUSES : List String := ["Present", "Absent", "Leave"]

/-- Model of `_validate_emp_id`: `ValueError` unless the id is a positive
integer (the `isinstance(emp_id, int)` half of the guard is outside an
integer-typed embedding; all modelled inputs are integers). -/
def validate_emp_id (e : Int) : Except AttErr Unit :=
  if e ≤ 0 then .error .invalidEmployeeId else .ok ()

/-- Model of `_validate_status`, returning the status it accepted.  The
argument is an `Option` because the CSV import can hand `None` to
`add_record` (a missing field); `None` is not a member of `VALID_STATUSES`,
hence rejected. -/
def validate_status (s : Option String) : Except AttErr String :=
  match s with
  | some s => if s ∈ VALID_STATUSES then .ok s else .error .invalidStatus
  | none => .error .invalidStatus

/-- Model of `_validate_date`: parse with `strptime` and return the
`isoformat` normalization; `TypeError` (a `None` argument, from a missing
CSV field) and `ValueError` are both re-raised as the date-format error. -/
def validate_date (s : Option String) : Except AttErr String :=
  match s with
  | none => .error .invalidDateFormat
  | some s =>
    match parseDateChars s.data with
    | some (y, m, d) => .ok (isoDate y m d)
    | none => .error .invalidDateFormat

/-- The mutation `self.records.setdefault(emp_id, {})[normalized_date] = status`:
update the employee's inner dict in place when present, otherwise append a
fresh one-entry inner dict. -/
def storeInsert (e : Int) (nd s : String) (st : Store) : Store :=
  match dictGet e st with
  | some m => dictSet e (dictSet nd s m) st
  | none => st ++ [(e, [(nd, s)])]

/-- Model of `add_record` with optionally-missing string arguments (as the
CSV import can produce).  Validations run in source order before the single
mutation, so every error leaves the store unchanged. -/
def add_recordO (e : Int) (date status : Option String) (st : Store) :
    Except AttErr Unit × Store :=
  match validate_emp_id e with
  | .error err => (.error err, st)
  | .ok _ =>
    match validate_date date with
    | .error err => (.error err, st)
    | .ok nd =>
      match validate_status status with
      | .error err => (.error err, st)
      | .ok sv => (.ok (), storeInsert e nd sv st)

/-- Model of `add_record` on present string arguments (the API surface). -/
def add_record (e : Int) (date status : String) (st : Store) :
    Except AttErr Unit × Store :=
  add_recordO e (some date) (some status) st

/-- Model of `get_records`: `self.records.get(emp_id)`. -/
def get_records (e : Int) (st : Store) : Option Inner :=
  dictGet e st

/-- Model of `get_all_records` at the value level: `self.records.copy()`.
The copy is shallow; the aliasing this creates is modelled by the heap
embedding `HStore` below. -/
def get_all_records (st : Store) : Store := st

/-- Model of `delete_record`: validate the date first, then remove the entry
when present, dropping the employee key when its inner dict becomes empty. -/
def delete_record (e : Int) (date : String) (st : Store) :
    Except AttErr Bool × Store :=
  match validate_date (some date) with
  | .error err => (.error err, st)
  | .ok nd =>
    match dictGet e st with
    | some m =>
      if (dictGet nd m).isSome then
        let m' := dictDel nd m
        if m' = [] then (.ok true, dictDel e st)
        else (.ok true, dictSet e m' st)
      else (.ok false, st)
    | none => (.ok false, st)

/-- The counting loop of `_summarize`: `summary[status] += 1` over the
employee's statuses; a status outside the three initialized keys raises
`KeyError`, modelled as `none`. -/
def summarizeGo : List (String × String) → Nat × Nat × Nat → Option (Nat × Nat × Nat)
  | [], acc => some acc
  | p :: rest, (pr, ab, lv) =>
    if p.2 = "Present" then summarizeGo rest (pr + 1, ab, lv)
    else if p.2 = "Absent" then summarizeGo rest (pr, ab + 1, lv)
    else if p.2 = "Leave" then summarizeGo rest (pr, ab, lv + 1)
    else none

/-- Model of `_summarize`: the zero-initialized three-key summary dict in its
insertion order, or `none` for the `KeyError` of an invalid stored status. -/
def summarize (m : Inner) : Option (List (String × Nat)) :=
  (summarizeGo m (0, 0, 0)).map
    (fun t => [("Present", t.1), ("Absent", t.2.1), ("Leave", t.2.2)])

/-- Model of `get_summary`: `Except.error ()` is an escaping `KeyError`
(impossible on reachable stores), `.ok none` the not-found `None`. -/
def get_summary (e : Int) (st : Store) : Except Unit (Option (List (String × Nat))) :=
  match dictGet e st with
  | none => .ok none
  | some m =>
    match summarize m with
    | some summ => .ok (some summ)
    | none => .error ()

/-- Model of `get_attendance_rate`; Python float division is modelled by
exact rational arithmetic (the spec's distinguished value `50.0` is exactly
representable in both). -/
def get_attendance_rate (e : Int) (st : Store) : Except Unit (Option ℚ) :=
  match dictGet e st with
  | none => .ok none
  | some m =>
    match summarizeGo m (0, 0, 0) with
    | none => .error ()
    | some t =>
      let total := t.1 + t.2.1 + t.2.2
      if total = 0 then .ok (some 0)
      else .ok (some ((t.1 : ℚ) / (total : ℚ) * 100))

/-- Python string comparison `s <= t`: lexicographic on code points. -/
def charsLe : List Char → List Char → Bool
  | [], _ => true
  | _ :: _, [] => false
  | c :: cs, c' :: cs' =>
    if c = c' then charsLe cs cs' else decide (c < c')

/-- String comparison `start <= date <= end` as used by the filter. -/
def strLe (s t : String) : Bool := charsLe s.data t.data

/-- The dict comprehension of `filter_by_date_range`:
`{date: status for date, status in records.items() if start <= date <= end}`. -/
def rangeFilter (s e : String) (m : Inner) : Inner :=
  m.filter (fun p => strLe s p.1 && strLe p.1 e)

/-- Model of `filter_by_date_range`: validate and normalize both bounds, then
keep per employee the records with `start <= date <= end`, dropping employees
whose filtered inner dict is empty. -/
def filter_by_date_range (sd ed : String) (st : Store) : Except AttErr Store :=
  match validate_date (some sd) with
  | .error err => .error err
  | .ok s =>
    match validate_date (some ed) with
    | .error err => .error err
    | .ok e =>
      .ok (st.filterMap (fun q =>
        if (rangeFilter s e q.2).isEmpty then none
        else some (q.1, rangeFilter s e q.2)))

/-- Rendering of a nonnegative number in decimal, with explicit fuel so that
the definition is structural (the fuel `n + 1` always suffices). -/
def natCharsAux : Nat → Nat → List Char
  | 0, _ => []
  | fuel + 1, n =>
    if n < 10 then [digitChar n]
    else natCharsAux fuel (n / 10) ++ [digitChar (n % 10)]

/-- Decimal digits of a nonnegative number. -/
def natChars (n : Nat) : List Char := natCharsAux (n + 1) n

/-- Model of Python `str()` on an integer. -/
def intStr (i : Int) : String :=
  if i < 0 then ⟨'-' :: natChars i.natAbs⟩ else ⟨natChars i.natAbs⟩

/-- Digits-only decimal parse, the core of the `int()` builtin. -/
def parseNatChars (cs : List Char) : Option Nat :=
  if cs ≠ [] ∧ cs.all Char.isDigit then
    some (cs.foldl (fun a c => 10 * a + digitVal c) 0)
  else none

/-- Model of the `int()` builtin on a string: optional sign then decimal
digits (abstraction: surrounding whitespace and digit-group underscores,
which Python also accepts and no claim depends on, are not modelled). -/
def pyIntChars (cs : List Char) : Option Int :=
  match cs with
  | [] => none
  | c :: rest =>
    if c = '-' then (parseNatChars rest).map (fun n => -(n : Int))
    else if c = '+' then (parseNatChars rest).map (fun n => (n : Int))
    else (parseNatChars (c :: rest)).map (fun n => (n : Int))

/-- Sorting by dict key, as Python `sorted(d.items())` on unique keys. -/
def sortByKey {α : Type} (l : List (Int × α)) : List (Int × α) :=
  List.insertionSort (fun a b => a.1 ≤ b.1) l

/-- Sorting an inner dict by its date keys, `sorted(records.items())`. -/
def sortByDate (m : Inner) : Inner :=
  List.insertionSort (fun a b => strLe a.1 b.1 = true) m

/-- Model of `export_to_csv`: the written file as its list of rows of
fields — a fixed header, then one row per record, employees and dates in
ascending order (the `csv` layer's quoting never triggers on this data). -/
def export_to_csv (st : Store) : List (List String) :=
  ["Employee_ID", "Date", "Status"] ::
    ((sortByKey st).map (fun q =>
      (sortByDate q.2).map (fun p => [intStr q.1, p.1, p.2]))).flatten

/-- Index assigned to a field name by `csv.DictReader`'s header dict: the
last occurrence wins, as in `dict(zip(fieldnames, row))`. -/
def lastIdxOf (name : String) (header : List String) : Option Nat :=
  ((header.enum.filter (fun p => p.2 = name)).map (fun p => p.1)).getLast?

/-- Field access `row[name]` on a `csv.DictReader` row: `KeyError` (modelled
as `.error ()`) when the name is not a header field, the `restval` `None`
when the row is too short for the field's column. -/
def rowGet (header row : List String) (name : String) : Except Unit (Option String) :=
  match lastIdxOf name header with
  | none => .error ()
  | some i => .ok (row.get? i)

/-- The row loop of `import_from_csv`.  A `ValueError`/`KeyError` for a row
is swallowed and the row skipped; `none` models the uncaught `TypeError` of
`int(None)` when a non-empty row lacks its `Employee_ID` field, which aborts
the whole call.  `DictReader` skips rows with no fields at all. -/
def importGo (header : List String) :
    List (List String) → Store → Nat → Option (Store × Nat)
  | [], st, count => some (st, count)
  | row :: rest, st, count =>
    if row = [] then importGo header rest st count
    else
      match rowGet header row "Employee_ID" with
      | .error _ => importGo header rest st count
      | .ok none => none
      | .ok (some empStr) =>
        match pyIntChars empStr.data with
        | none => importGo header rest st count
        | some e =>
          match rowGet header row "Date", rowGet header row "Status" with
          | .ok dopt, .ok sopt =>
            match add_recordO e dopt sopt st with
            | (.ok _, st') => importGo header rest st' (count + 1)
            | (.error _, st') => importGo header rest st' count
          | _, _ => importGo header rest st count

/-- Model of `import_from_csv` on the file's rows: first row is the header
consumed by `DictReader`, the result is the count of added rows (`none` is
an uncaught exception escaping the method). -/
def import_from_csv (file : List (List String)) (st : Store) : Option (Store × Nat) :=
  match file with
  | [] => some (st, 0)
  | header :: rows => importGo header rows st 0

/-- The invariant of reachable stores: positive employee keys, canonical
date keys, valid statuses, no empty inner dict, and (being dicts) unique
keys at both levels. -/
def StoreInv (st : Store) : Prop :=
  (∀ q ∈ st, 0 < q.1 ∧ q.2 ≠ [] ∧ (q.2.map Prod.fst).Nodup ∧
    ∀ p ∈ q.2, isCanonicalDate p.1 = true ∧ p.2 ∈ VALID_STATUSES) ∧
  (st.map Prod.fst).Nodup

instance (st : Store) : Decidable (StoreInv st) := by
  unfold StoreInv; infer_instance

/-- Stores reachable from the empty store by the mutating operations. -/
inductive Reachable : Store → Prop where
  | empty : Reachable []
  | add (e : Int) (d s : String) (st : Store) :
      Reachable st → Reachable (add_record e d s st).2
  | del (e : Int) (d : String) (st : Store) :
      Reachable st → Reachable (delete_record e d st).2
  | imp (file : List (List String)) (st st' : Store) (n : Nat) :
      Reachable st → import_from_csv file st = some (st', n) → Reachable st'

/-- Heap-level model of the tracker, making the sharing of the inner dicts
observable: `outer` maps employee ids to heap addresses of inner dicts,
`heap` maps addresses to the inner dicts themselves, `nextA` is the next
fresh address.  This is the embedding on which `get_all_records`'s
`self.records.copy()` — a shallow copy — can be examined. -/
structure HStore : Type where
  outer : List (Int × Nat)
  heap : List (Nat × Inner)
  nextA : Nat
deriving DecidableEq

/-- The empty tracker, at heap level. -/
def hEmpty : HStore := ⟨[], [], 0⟩

/-- The inner dict stored at a heap address. -/
def heapAt (a : Nat) (h : HStore) : Inner := (dictGet a h.heap).getD []

/-- Heap-level `add_record`: validations as in the flat model, then
`setdefault` either mutates the existing inner dict in the heap or
allocates a fresh one-entry inner dict at a fresh address. -/
def hAdd (e : Int) (date status : String) (h : HStore) : Except AttErr Unit × HStore :=
  match validate_emp_id e with
  | .error err => (.error err, h)
  | .ok _ =>
    match validate_date (some date) with
    | .error err => (.error err, h)
    | .ok nd =>
      match validate_status (some status) with
      | .error err => (.error err, h)
      | .ok sv =>
        match dictGet e h.outer with
        | some a =>
          (.ok (), { h with heap := dictSet a (dictSet nd sv (heapAt a h)) h.heap })
        | none =>
          (.ok (), { outer := h.outer ++ [(e, h.nextA)],
                     heap := h.heap ++ [(h.nextA, [(nd, sv)])],
                     nextA := h.nextA + 1 })

/-- Heap-level `get_records`: the employee's inner dict, read through its
address (the caller receives the live inner dict). -/
def hGetRecords (e : Int) (h : HStore) : Option Inner :=
  (dictGet e h.outer).map (fun a => heapAt a h)

/-- Heap-level `get_all_records`: `self.records.copy()` builds a new
top-level dict holding the same inner-dict references, so the returned
value is the address table itself. -/
def hGetAllRecords (h : HStore) : List (Int × Nat) := h.outer

/-- A caller writing `result[e][date] = status` through an inner dict
obtained from a returned mapping: a heap write at that address. -/
def mutateInner (a : Nat) (d s : String) (h : HStore) : HStore :=
  { h with heap := dictSet a (dictSet d s (heapAt a h)) h.heap }

instance {ε α : Type} [DecidableEq ε] [DecidableEq α] : DecidableEq (Except ε α) := by
  intro a b
  cases a with
  | error x =>
    cases b with
    | error y =>
      by_cases h : x = y
      · exact isTrue (by rw [h])
      · exact isFalse (fun hh => by cases hh; exact h rfl)
    | ok y => exact isFalse (fun hh => by injection hh)
  | ok x =>
    cases b with
    | error y => exact isFalse (fun hh => by injection hh)
    | ok y =>
      by_cases h : x = y
      · exact isTrue (by rw [h])
      · exact isFalse (fun hh => by cases hh; exact h rfl)

/-- The (employee, date, status) triples an export enumerates, employees and
dates in ascending order. -/
def exportTriples (st : Store) : List (Int × String × String) :=
  ((sortByKey st).map (fun q => (sortByDate q.2).map (fun p => (q.1, p.1, p.2)))).flatten

/-- Number of the employee's records carrying the given status (the value
`_summarize` reports for that status). -/
def countStatus (s : String) (m : Inner) : Nat :=
  m.countP (fun p => p.2 = s)

/-- Flat view of a store as (employee, date, status) triples, the record set
an export enumerates. -/
def flatStore (st : Store) : List (Int × String × String) :=
  (st.map (fun q => q.2.map (fun p => (q.1, p.1, p.2)))).flatten

/-- Folding `add`'s mutation over a list of already-validated triples. -/
def foldStore (ts : List (Int × String × String)) (st : Store) : Store :=
  ts.foldl (fun acc t => storeInsert t.1 t.2.1 t.2.2 acc) st

/-- Modelled from the spec: the best-effort handling of one tabular row —
`some st'` when the row's fields pass the `add` validation and the record is
added, `none` when the row is structurally incomplete or fails validation
and is to be skipped.  (This is the comparison point for the import's
claimed per-row recovery; the code's deviation is the uncaught `TypeError`
branch of `importGo`.) -/
def tryAddRow (header row : List String) (st : Store) : Option Store :=
  if row = [] then none
  else
    match rowGet header row "Employee_ID" with
    | .error _ => none
    | .ok none => none
    | .ok (some empStr) =>
      match pyIntChars empStr.data with
      | none => none
      | some e =>
        match rowGet header row "Date", rowGet header row "Status" with
        | .ok dopt, .ok sopt =>
          match add_recordO e dopt sopt st with
          | (.ok _, st') => some st'
          | (.error _, _) => none
        | _, _ => none

/-- Modelled from the spec: best-effort tabular import — every row whose
fields pass the `add` validation is added and counted, every other row is
skipped, and the count of added rows is returned. -/
def bestEffortImport (file : List (List String)) (st : Store) : Store × Nat :=
  match file with
  | [] => (st, 0)
  | header :: rows =>
    rows.foldl
      (fun acc row =>
        match tryAddRow header row acc.1 with
        | some st' => (st', acc.2 + 1)
        | none => acc)
      (st, 0)

section DictLemmas

variable {α β : Type} [DecidableEq α]

theorem dictGet_dictSet_self (k : α) (v : β) (l : List (α × β)) :
    dictGet k (dictSet k v l) = some v := by
  induction l with
  | nil => simp [dictGet, dictSet]
  | cons p rest ih =>
    by_cases h : p.1 = k
    · simp [dictSet, h, dictGet]
    · simp [dictSet, h, dictGet, ih]

theorem dictGet_dictSet_ne {k k' : α} (v : β) (l : List (α × β)) (h : k' ≠ k) :
    dictGet k' (dictSet k v l) = dictGet k' l := by
  have hks : ¬(k = k') := fun hh => h hh.symm
  induction l with
  | nil => simp [dictGet, dictSet, hks]
  | cons p rest ih =>
    obtain ⟨a, b⟩ := p
    by_cases hp : a = k
    · have ha : ¬(a = k') := fun hh => h (hh.symm.trans hp)
      simp [dictSet, hp, dictGet, hks, ha]
    · simp only [dictSet, hp, if_false, dictGet]
      by_cases hp' : a = k'
      · simp [hp']
      · simp [hp', ih]

theorem dictGet_append (k : α) (l l' : List (α × β)) :
    dictGet k (l ++ l') =
      match dictGet k l with
      | some v => some v
      | none => dictGet k l' := by
  induction l with
  | nil => simp [dictGet]
  | cons p rest ih =>
    by_cases hp : p.1 = k
    · simp [dictGet, hp]
    · simp [dictGet, hp, ih]

theorem dictGet_none_iff (k : α) (l : List (α × β)) :
    dictGet k l = none ↔ k ∉ l.map Prod.fst := by
  induction l with
  | nil => simp [dictGet]
  | cons p rest ih =>
    obtain ⟨a, b⟩ := p
    by_cases hp : a = k
    · simp [dictGet, hp]
    · have hk : ¬(k = a) := fun hh => hp hh.symm
      simp [dictGet, hp, ih, hk]

theorem dictGet_some_mem {k : α} {v : β} {l : List (α × β)} (h : dictGet k l = some v) :
    (k, v) ∈ l := by
  induction l with
  | nil => simp [dictGet] at h
  | cons p rest ih =>
    obtain ⟨a, b⟩ := p
    by_cases hp : a = k
    · simp only [dictGet, hp, if_true, Option.some.injEq] at h
      subst hp
      subst h
      exact List.mem_cons_self _ _
    · simp only [dictGet, hp, if_false] at h
      exact List.mem_cons_of_mem _ (ih h)

theorem mem_dictGet_of_nodup {k : α} {v : β} {l : List (α × β)}
    (hn : (l.map Prod.fst).Nodup) (h : (k, v) ∈ l) : dictGet k l = some v := by
  induction l with
  | nil => simp at h
  | cons p rest ih =>
    simp only [List.map_cons, List.nodup_cons] at hn
    rcases List.mem_cons.mp h with h | h
    · subst h
      simp [dictGet]
    · have hk : k ∈ rest.map Prod.fst := List.mem_map.mpr ⟨(k, v), h, rfl⟩
      have hp : p.1 ≠ k := fun hh => hn.1 (hh ▸ hk)
      simp [dictGet, hp]
      exact ih hn.2 h

theorem mem_dictSet {k : α} {v : β} {l : List (α × β)} {p : α × β}
    (h : p ∈ dictSet k v l) : p = (k, v) ∨ p ∈ l := by
  induction l with
  | nil => simp [dictSet] at h; simp [h]
  | cons q rest ih =>
    by_cases hq : q.1 = k
    · simp [dictSet, hq] at h
      rcases h with h | h
      · simp [h]
      · right; exact List.mem_cons_of_mem _ h
    · simp only [dictSet, hq, if_false] at h
      rcases List.mem_cons.mp h with h | h
      · right; simp [h]
      · rcases ih h with h | h
        · left; exact h
        · right; exact List.mem_cons_of_mem _ h

theorem dictSet_ne_nil (k : α) (v : β) (l : List (α × β)) : dictSet k v l ≠ [] := by
  cases l with
  | nil => simp [dictSet]
  | cons q rest =>
    by_cases hq : q.1 = k <;> simp [dictSet, hq]

theorem map_fst_dictSet_present {k : α} (v : β) {l : List (α × β)}
    (h : dictGet k l ≠ none) : (dictSet k v l).map Prod.fst = l.map Prod.fst := by
  induction l with
  | nil => simp [dictGet] at h
  | cons q rest ih =>
    by_cases hq : q.1 = k
    · simp [dictSet, hq]
    · simp only [dictGet, hq, if_false] at h
      simp [dictSet, hq, ih h]

theorem map_fst_dictSet_absent {k : α} (v : β) {l : List (α × β)}
    (h : dictGet k l = none) : (dictSet k v l).map Prod.fst = l.map Prod.fst ++ [k] := by
  induction l with
  | nil => simp [dictSet]
  | cons q rest ih =>
    by_cases hq : q.1 = k
    · simp [dictGet, hq] at h
    · simp only [dictGet, hq, if_false] at h
      simp [dictSet, hq, ih h]

theorem dictDel_sublist (k : α) (l : List (α × β)) : (dictDel k l).Sublist l := by
  induction l with
  | nil => simp [dictDel]
  | cons q rest ih =>
    by_cases hq : q.1 = k
    · simp only [dictDel, hq, if_true]
      exact List.sublist_cons_self q rest
    · simp only [dictDel, hq, if_false]
      exact ih.cons₂ q

theorem mem_dictDel {k : α} {l : List (α × β)} {p : α × β} (h : p ∈ dictDel k l) :
    p ∈ l :=
  (dictDel_sublist k l).mem h

theorem dictGet_dictDel_self {k : α} {l : List (α × β)}
    (hn : (l.map Prod.fst).Nodup) : dictGet k (dictDel k l) = none := by
  induction l with
  | nil => simp [dictDel, dictGet]
  | cons q rest ih =>
    simp only [List.map_cons, List.nodup_cons] at hn
    by_cases hq : q.1 = k
    · simp only [dictDel, hq, if_true]
      exact (dictGet_none_iff _ _).mpr (hq ▸ hn.1)
    · simp [dictDel, hq, dictGet, ih hn.2]

theorem dictGet_dictDel_ne {k k' : α} (l : List (α × β)) (h : k' ≠ k) :
    dictGet k' (dictDel k l) = dictGet k' l := by
  induction l with
  | nil => simp [dictDel]
  | cons q rest ih =>
    obtain ⟨a, b⟩ := q
    by_cases hq : a = k
    · have ha : ¬(a = k') := fun hh => h (hh.symm.trans hq)
      have hks : ¬(k = k') := fun hh => h hh.symm
      simp [dictDel, hq, dictGet, ha, hks]
    · simp only [dictDel, hq, if_false, dictGet]
      by_cases hq' : a = k'
      · simp [hq']
      · simp [hq', ih]

theorem map_fst_dictDel_sublist (k : α) (l : List (α × β)) :
    ((dictDel k l).map Prod.fst).Sublist (l.map Prod.fst) :=
  (dictDel_sublist k l).map Prod.fst

end DictLemmas

section DateLemmas

theorem digitChar_isDigit {n : Nat} (h : n < 10) : (digitChar n).isDigit = true := by
  interval_cases n <;> decide

theorem digitVal_digitChar {n : Nat} (h : n < 10) : digitVal (digitChar n) = n := by
  interval_cases n <;> decide

theorem digitChar_ne_dash {n : Nat} (h : n < 10) : digitChar n ≠ '-' := by
  interval_cases n <;> decide

theorem daysInMonth_le (y m : Nat) : daysInMonth y m ≤ 31 := by
  unfold daysInMonth
  split_ifs <;> omega

theorem splitAtDash_append {l : List Char} (r : List Char) (h : ∀ c ∈ l, c ≠ '-') :
    splitAtDash (l ++ '-' :: r) = some (l, r) := by
  induction l with
  | nil => simp [splitAtDash]
  | cons c cs ih =>
    have hc : ¬(c = '-') := h c (List.mem_cons_self c cs)
    have ih' := ih (fun x hx => h x (List.mem_cons_of_mem c hx))
    simp only [List.cons_append, splitAtDash, hc, if_false, List.append_eq, ih']

theorem twoDigitToken_pad2 {hi v : Nat} (h1 : 1 ≤ v) (h2 : v ≤ hi) (h99 : v ≤ 99) :
    twoDigitToken hi (pad2 v) = some v := by
  have hq : v / 10 < 10 := by omega
  have hr : v % 10 < 10 := by omega
  simp only [pad2, twoDigitToken, digitChar_isDigit hq, digitChar_isDigit hr, and_self,
    if_true, digitVal_digitChar hq, digitVal_digitChar hr]
  have hv : 10 * (v / 10) + v % 10 = v := by omega
  rw [hv, if_pos ⟨h1, h2⟩]

theorem pad2_ne_dash {v : Nat} (h : v ≤ 99) : ∀ c ∈ pad2 v, c ≠ '-' := by
  intro c hc
  simp only [pad2, List.mem_cons, List.not_mem_nil, or_false] at hc
  rcases hc with hc | hc <;> subst hc
  · exact digitChar_ne_dash (by omega)
  · exact digitChar_ne_dash (by omega)

theorem parse_isoDate {y m d : Nat} (h : isRealDate y m d = true) :
    parseDateChars (isoDateChars y m d) = some (y, m, d) := by
  simp only [isRealDate, decide_eq_true_eq] at h
  obtain ⟨hy1, hy2, hm1, hm2, hd1, hdm⟩ := h
  have hd31 : d ≤ 31 := le_trans hdm (daysInMonth_le y m)
  have e1 : digitVal (digitChar (y / 1000)) = y / 1000 := digitVal_digitChar (by omega)
  have e2 : digitVal (digitChar (y / 100 % 10)) = y / 100 % 10 := digitVal_digitChar (by omega)
  have e3 : digitVal (digitChar (y / 10 % 10)) = y / 10 % 10 := digitVal_digitChar (by omega)
  have e4 : digitVal (digitChar (y % 10)) = y % 10 := digitVal_digitChar (by omega)
  show parseDateChars (digitChar (y / 1000) :: digitChar (y / 100 % 10) ::
    digitChar (y / 10 % 10) :: digitChar (y % 10) :: '-' :: (pad2 m ++ '-' :: pad2 d)) = _
  have hreal : isRealDate y m d = true := by
    simp only [isRealDate, decide_eq_true_eq]
    exact ⟨hy1, hy2, hm1, hm2, hd1, hdm⟩
  have hv : 1000 * (y / 1000) + 100 * (y / 100 % 10) + 10 * (y / 10 % 10) + y % 10 = y := by
    omega
  simp only [parseDateChars, digitChar_isDigit (show y / 1000 < 10 by omega),
    digitChar_isDigit (show y / 100 % 10 < 10 by omega),
    digitChar_isDigit (show y / 10 % 10 < 10 by omega),
    digitChar_isDigit (show y % 10 < 10 by omega), and_self, and_true, true_and, if_true,
    splitAtDash_append (pad2 d) (pad2_ne_dash (show m ≤ 99 by omega)),
    twoDigitToken_pad2 hm1 hm2 (show m ≤ 99 by omega),
    twoDigitToken_pad2 hd1 hd31 (show d ≤ 99 by omega), e1, e2, e3, e4, hv, hreal]

theorem parse_isRealDate {cs : List Char} {y m d : Nat}
    (h : parseDateChars cs = some (y, m, d)) : isRealDate y m d = true := by
  rcases cs with _ | ⟨c₁, _ | ⟨c₂, _ | ⟨c₃, _ | ⟨c₄, _ | ⟨c₅, rest⟩⟩⟩⟩⟩ <;>
    simp only [parseDateChars] at h
  iterate 5 exact absurd h (by simp)
  split at h
  · rcases hsp : splitAtDash rest with _ | ⟨mtok, dtok⟩ <;> rw [hsp] at h <;> dsimp only at h
    · exact absurd h (by simp)
    · rcases hm : twoDigitToken 12 mtok with _ | mv <;>
        rcases hd : twoDigitToken 31 dtok with _ | dv <;>
          rw [hm, hd] at h <;> dsimp only at h
      · exact absurd h (by simp)
      · exact absurd h (by simp)
      · exact absurd h (by simp)
      · split at h
        next hreal =>
          simp only [Option.some.injEq, Prod.mk.injEq] at h
          obtain ⟨h1, h2, h3⟩ := h
          subst h1
          subst h2
          subst h3
          exact hreal
        next => exact absurd h (by simp)
  · exact absurd h (by simp)

theorem isoDate_data (y m d : Nat) : (isoDate y m d).data = isoDateChars y m d := rfl

theorem isCanonicalDate_isoDate {y m d : Nat} (h : isRealDate y m d = true) :
    isCanonicalDate (isoDate y m d) = true := by
  simp [isCanonicalDate, isoDate_data, parse_isoDate h]

theorem validate_date_canonical {o : Option String} {nd : String}
    (h : validate_date o = .ok nd) : isCanonicalDate nd = true := by
  rcases o with _ | s
  · simp [validate_date] at h
  · simp only [validate_date] at h
    rcases hp : parseDateChars s.data with _ | ⟨⟨y, m, d⟩⟩ <;> rw [hp] at h
    · exact absurd h (by simp)
    · simp only [Except.ok.injEq] at h
      subst h
      exact isCanonicalDate_isoDate (parse_isRealDate hp)

theorem validate_date_of_canonical {s : String} (h : isCanonicalDate s = true) :
    validate_date (some s) = .ok s := by
  simp only [isCanonicalDate] at h
  rcases hp : parseDateChars s.data with _ | ⟨⟨y, m, d⟩⟩ <;> rw [hp] at h
  · exact absurd h (by simp)
  · simp only [decide_eq_true_eq] at h
    simp only [validate_date, hp, h]

theorem validate_date_none {d : String} (hp : parseDateChars d.data = none) :
    validate_date (some d) = .error .invalidDateFormat := by
  unfold validate_date
  dsimp only
  rw [hp]

theorem validate_date_some {d : String} {y m dd : Nat}
    (hp : parseDateChars d.data = some (y, m, dd)) :
    validate_date (some d) = .ok (isoDate y m dd) := by
  unfold validate_date
  dsimp only
  rw [hp]

theorem charsLe_trans {a b c : List Char} (hab : charsLe a b = true)
    (hbc : charsLe b c = true) : charsLe a c = true := by
  induction a generalizing b c with
  | nil => simp [charsLe]
  | cons x xs ih =>
    cases b with
    | nil => simp [charsLe] at hab
    | cons y ys =>
      cases c with
      | nil => simp [charsLe] at hbc
      | cons z zs =>
        simp only [charsLe] at hab hbc ⊢
        by_cases hxy : x = y
        · subst hxy
          rw [if_pos rfl] at hab
          by_cases hxz : x = z
          · subst hxz
            rw [if_pos rfl] at hbc
            rw [if_pos rfl]
            exact ih hab hbc
          · rw [if_neg hxz] at hbc
            rw [if_neg hxz]
            exact hbc
        · rw [if_neg hxy] at hab
          have hlt1 : x < y := of_decide_eq_true hab
          by_cases hyz : y = z
          · subst hyz
            rw [if_neg hxy]
            exact hab
          · rw [if_neg hyz] at hbc
            have hlt2 : y < z := of_decide_eq_true hbc
            have hlt : x < z := lt_trans hlt1 hlt2
            rw [if_neg (ne_of_lt hlt)]
            exact decide_eq_true hlt

end DateLemmas

section NumberLemmas

theorem natCharsAux_spec : ∀ fuel n : Nat, n < fuel →
    natCharsAux fuel n ≠ [] ∧ (∀ c ∈ natCharsAux fuel n, c.isDigit = true) ∧
      (natCharsAux fuel n).foldl (fun a c => 10 * a + digitVal c) 0 = n := by
  intro fuel
  induction fuel with
  | zero => intro n h; omega
  | succ f ih =>
    intro n h
    by_cases h10 : n < 10
    · simp only [natCharsAux, h10, if_true]
      refine ⟨by simp, ?_, ?_⟩
      · intro c hc
        simp only [List.mem_cons, List.not_mem_nil, or_false] at hc
        subst hc
        exact digitChar_isDigit h10
      · simp [digitVal_digitChar h10]
    · have hn : n / 10 < f := by omega
      obtain ⟨hne, hdig, hval⟩ := ih (n / 10) hn
      simp only [natCharsAux, h10, if_false]
      refine ⟨by simp, ?_, ?_⟩
      · intro c hc
        rcases List.mem_append.mp hc with hc | hc
        · exact hdig c hc
        · simp only [List.mem_cons, List.not_mem_nil, or_false] at hc
          subst hc
          exact digitChar_isDigit (by omega)
      · rw [List.foldl_append, hval]
        simp only [List.foldl_cons, List.foldl_nil, digitVal_digitChar
          (show n % 10 < 10 by omega)]
        omega

theorem parseNat_natChars (n : Nat) : parseNatChars (natChars n) = some n := by
  obtain ⟨hne, hdig, hval⟩ := natCharsAux_spec (n + 1) n (by omega)
  unfold natChars parseNatChars
  rw [if_pos ⟨hne, List.all_eq_true.mpr hdig⟩, hval]

theorem pyInt_intStr {e : Int} (he : 0 < e) : pyIntChars (intStr e).data = some e := by
  have hneg : ¬(e < 0) := by omega
  rw [show intStr e = ⟨natChars e.natAbs⟩ by rw [intStr, if_neg hneg]]
  show pyIntChars (natChars e.natAbs) = some e
  obtain ⟨hne, hdig, hval⟩ := natCharsAux_spec (e.natAbs + 1) e.natAbs (by omega)
  have hparse : parseNatChars (natChars e.natAbs) = some e.natAbs :=
    parseNat_natChars e.natAbs
  rcases hcs : natChars e.natAbs with _ | ⟨c, tl⟩
  · exact absurd hcs hne
  · have hcs' : natCharsAux (e.natAbs + 1) e.natAbs = c :: tl := hcs
    rw [hcs'] at hdig
    rw [hcs] at hparse
    have hcd : c.isDigit = true := hdig c (List.mem_cons_self _ _)
    have hc1 : ¬(c = '-') := by
      intro hh
      rw [hh] at hcd
      exact absurd hcd (by decide)
    have hc2 : ¬(c = '+') := by
      intro hh
      rw [hh] at hcd
      exact absurd hcd (by decide)
    have habs : ((e.natAbs : Int)) = e := Int.natAbs_of_nonneg (by omega)
    simp [pyIntChars, hc1, hc2, hparse, habs]

end NumberLemmas

section SummaryLemmas

theorem summarizeGo_valid {m : Inner} (h : ∀ p ∈ m, p.2 ∈ VALID_STATUSES) :
    ∀ pr ab lv : Nat, summarizeGo m (pr, ab, lv) =
      some (pr + countStatus "Present" m, ab + countStatus "Absent" m,
        lv + countStatus "Leave" m) := by
  induction m with
  | nil => intro pr ab lv; simp [summarizeGo, countStatus]
  | cons p rest ih =>
    intro pr ab lv
    have hp := h p (List.mem_cons_self p rest)
    have ih' := ih (fun q hq => h q (List.mem_cons_of_mem p hq))
    simp only [VALID_STATUSES, List.mem_cons, List.mem_singleton,
      List.not_mem_nil, or_false] at hp
    rcases hp with hp | hp | hp <;>
      simp only [summarizeGo, hp, if_true, if_false, ih', countStatus, List.countP_cons,
        decide_eq_true_eq, reduceIte] <;>
      refine congrArg some ?_ <;>
      simp [countStatus, hp] <;> omega

theorem countStatus_total {m : Inner} (h : ∀ p ∈ m, p.2 ∈ VALID_STATUSES) :
    countStatus "Present" m + countStatus "Absent" m + countStatus "Leave" m
      = m.length := by
  induction m with
  | nil => simp [countStatus]
  | cons p rest ih =>
    have hp := h p (List.mem_cons_self p rest)
    have ih' := ih (fun q hq => h q (List.mem_cons_of_mem p hq))
    simp only [VALID_STATUSES, List.mem_cons, List.mem_singleton,
      List.not_mem_nil, or_false] at hp
    rcases hp with hp | hp | hp <;>
      simp [countStatus, List.countP_cons, hp] <;>
      simp only [countStatus] at ih' <;> omega

end SummaryLemmas

section StoreLemmas

theorem lookup2_storeInsert_self (e : Int) (d s : String) (st : Store) :
    lookup2 e d (storeInsert e d s st) = some s := by
  unfold storeInsert
  rcases hg : dictGet e st with _ | m
  · unfold lookup2
    rw [dictGet_append]
    rw [hg]
    simp [dictGet]
  · unfold lookup2
    rw [dictGet_dictSet_self]
    simp [dictGet_dictSet_self]

theorem lookup2_storeInsert_ne (e e' : Int) (d d' s : String) (st : Store)
    (h : ¬(e' = e ∧ d' = d)) :
    lookup2 e' d' (storeInsert e d s st) = lookup2 e' d' st := by
  unfold storeInsert
  by_cases he : e' = e
  · subst he
    have hd : d' ≠ d := fun hh => h ⟨rfl, hh⟩
    have hd' : ¬(d = d') := fun hh => hd hh.symm
    rcases hg : dictGet e' st with _ | m
    · unfold lookup2
      rw [dictGet_append, hg]
      simp [dictGet, hd', hg]
    · unfold lookup2
      rw [dictGet_dictSet_self, hg]
      simp [dictGet_dictSet_ne _ _ hd]
  · have he' : ¬(e = e') := fun hh => he hh.symm
    rcases hg : dictGet e st with _ | m
    · unfold lookup2
      rw [dictGet_append]
      rcases hg' : dictGet e' st with _ | m'
      · simp [hg', dictGet, he']
      · simp [hg']
    · unfold lookup2
      rw [dictGet_dictSet_ne _ _ he]

theorem dictGet_storeInsert_ne (e e' : Int) (d s : String) (st : Store)
    (h : e' ≠ e) : dictGet e' (storeInsert e d s st) = dictGet e' st := by
  unfold storeInsert
  have h' : ¬(e = e') := fun hh => h hh.symm
  rcases hg : dictGet e st with _ | m
  · rw [dictGet_append]
    rcases hg' : dictGet e' st with _ | m'
    · simp [hg', dictGet, h']
    · simp [hg']
  · exact dictGet_dictSet_ne _ _ h

end StoreLemmas

section InvariantLemmas

theorem validate_emp_id_pos {e : Int} {u : Unit} (h : validate_emp_id e = .ok u) :
    0 < e := by
  unfold validate_emp_id at h
  by_cases he : e ≤ 0
  · rw [if_pos he] at h
    exact absurd h (by simp)
  · omega

theorem validate_status_mem {o : Option String} {sv : String}
    (h : validate_status o = .ok sv) : sv ∈ VALID_STATUSES := by
  rcases o with _ | s
  · simp [validate_status] at h
  · unfold validate_status at h
    dsimp only at h
    by_cases hs : s ∈ VALID_STATUSES
    · rw [if_pos hs] at h
      simp only [Except.ok.injEq] at h
      subst h
      exact hs
    · rw [if_neg hs] at h
      exact absurd h (by simp)

theorem nodup_map_fst_dictSet {α β : Type} [DecidableEq α] {k : α} {v : β}
    {l : List (α × β)} (h : (l.map Prod.fst).Nodup) :
    ((dictSet k v l).map Prod.fst).Nodup := by
  rcases hg : dictGet k l with _ | w
  · rw [map_fst_dictSet_absent v hg]
    have hk : k ∉ l.map Prod.fst := (dictGet_none_iff k l).mp hg
    simp [List.nodup_append, h, hk]
  · rw [map_fst_dictSet_present v (by simp [hg])]
    exact h

theorem storeInsert_inv {e : Int} {nd sv : String} {st : Store} (h : StoreInv st)
    (he : 0 < e) (hnd : isCanonicalDate nd = true) (hsv : sv ∈ VALID_STATUSES) :
    StoreInv (storeInsert e nd sv st) := by
  obtain ⟨hent, hkeys⟩ := h
  unfold storeInsert
  rcases hg : dictGet e st with _ | m
  · constructor
    · intro q hq
      rcases List.mem_append.mp hq with hq | hq
      · exact hent q hq
      · simp only [List.mem_singleton] at hq
        subst hq
        refine ⟨he, by simp, by simp, ?_⟩
        intro p hp
        simp only [List.mem_singleton] at hp
        subst hp
        exact ⟨hnd, hsv⟩
    · rw [List.map_append]
      have hk : e ∉ st.map Prod.fst := (dictGet_none_iff e st).mp hg
      simp [List.nodup_append, hkeys, hk]
  · have hm := hent (e, m) (dictGet_some_mem hg)
    constructor
    · intro q hq
      rcases mem_dictSet hq with hq | hq
      · subst hq
        refine ⟨he, dictSet_ne_nil _ _ _, nodup_map_fst_dictSet hm.2.2.1, ?_⟩
        intro p hp
        rcases mem_dictSet hp with hp | hp
        · subst hp
          exact ⟨hnd, hsv⟩
        · exact hm.2.2.2 p hp
      · exact hent q hq
    · exact nodup_map_fst_dictSet hkeys

theorem add_recordO_inv {e : Int} {dopt sopt : Option String} {st : Store}
    (h : StoreInv st) : StoreInv (add_recordO e dopt sopt st).2 := by
  unfold add_recordO
  rcases hv1 : validate_emp_id e with err | u
  · exact h
  rcases hv2 : validate_date dopt with err | nd
  · exact h
  rcases hv3 : validate_status sopt with err | sv
  · exact h
  exact storeInsert_inv h (validate_emp_id_pos hv1) (validate_date_canonical hv2)
    (validate_status_mem hv3)

theorem delete_record_inv {e : Int} {d : String} {st : Store} (h : StoreInv st) :
    StoreInv (delete_record e d st).2 := by
  obtain ⟨hent, hkeys⟩ := h
  unfold delete_record
  rcases hv : validate_date (some d) with err | nd
  · exact ⟨hent, hkeys⟩
  rcases hg : dictGet e st with _ | m
  · exact ⟨hent, hkeys⟩
  dsimp only
  by_cases hin : (dictGet nd m).isSome
  · rw [if_pos hin]
    have hm := hent (e, m) (dictGet_some_mem hg)
    by_cases hnil : dictDel nd m = []
    · rw [if_pos hnil]
      constructor
      · intro q hq
        exact hent q (mem_dictDel hq)
      · exact ((map_fst_dictDel_sublist e st).nodup hkeys)
    · rw [if_neg hnil]
      constructor
      · intro q hq
        rcases mem_dictSet hq with hq | hq
        · subst hq
          refine ⟨hm.1, hnil, (map_fst_dictDel_sublist nd m).nodup hm.2.2.1, ?_⟩
          intro p hp
          exact hm.2.2.2 p (mem_dictDel hp)
        · exact hent q hq
      · exact nodup_map_fst_dictSet hkeys
  · rw [if_neg hin]
    exact ⟨hent, hkeys⟩

theorem importGo_inv :
    ∀ (header : List String) (rows : List (List String)) (st : Store) (c : Nat)
      (st' : Store) (n : Nat), StoreInv st →
      importGo header rows st c = some (st', n) → StoreInv st' := by
  intro header rows
  induction rows with
  | nil =>
    intro st c st' n h himp
    simp only [importGo, Option.some.injEq, Prod.mk.injEq] at himp
    rw [← himp.1]
    exact h
  | cons row rest ih =>
    intro st c st' n h himp
    unfold importGo at himp
    by_cases hrow : row = []
    · rw [if_pos hrow] at himp
      exact ih st c st' n h himp
    · rw [if_neg hrow] at himp
      rcases hg1 : rowGet header row "Employee_ID" with e1 | o1 <;> rw [hg1] at himp
      · exact ih st c st' n h himp
      rcases o1 with _ | empStr
      · exact absurd himp (by simp)
      dsimp only at himp
      rcases hg2 : pyIntChars empStr.data with _ | e <;> rw [hg2] at himp
      · exact ih st c st' n h himp
      dsimp only at himp
      rcases hg3 : rowGet header row "Date" with e3 | dopt <;> rw [hg3] at himp
      · exact ih st c st' n h himp
      rcases hg4 : rowGet header row "Status" with e4 | sopt <;> rw [hg4] at himp
      · exact ih st c st' n h himp
      dsimp only at himp
      rcases hadd : add_recordO e dopt sopt st with ⟨r, st₂⟩
      have hinv2 : StoreInv st₂ := by
        have hh := @add_recordO_inv e dopt sopt st h
        rw [hadd] at hh
        exact hh
      rw [hadd] at himp
      rcases r with err | u <;> dsimp only at himp
      · exact ih st₂ c st' n hinv2 himp
      · exact ih st₂ (c + 1) st' n hinv2 himp

theorem reachable_StoreInv {st : Store} (h : Reachable st) : StoreInv st := by
  induction h with
  | empty => exact ⟨by simp, by simp⟩
  | add e d s st₀ hr ih => exact add_recordO_inv ih
  | del e d st₀ hr ih => exact delete_record_inv ih
  | imp file st₀ st' n hr himp ih =>
    rcases file with _ | ⟨header, rows⟩
    · simp only [import_from_csv, Option.some.injEq, Prod.mk.injEq] at himp
      rw [← himp.1]
      exact ih
    · exact importGo_inv header rows st₀ 0 st' n ih himp

end InvariantLemmas

section OperationLemmas

theorem add_record_ok {e : Int} {ds status : String} (st : Store) (he : 0 < e)
    (hd : isCanonicalDate ds = true) (hs : status ∈ VALID_STATUSES) :
    add_record e ds status st = (.ok (), storeInsert e ds status st) := by
  unfold add_record add_recordO
  rw [show validate_emp_id e = .ok () from by
    unfold validate_emp_id
    rw [if_neg (by omega)]]
  rw [validate_date_of_canonical hd]
  dsimp only
  unfold validate_status
  dsimp only
  rw [if_pos hs]

theorem dictDel_eq_nil {α β : Type} [DecidableEq α] {k : α} {l : List (α × β)}
    (h : dictDel k l = []) : l = [] ∨ ∃ v, l = [(k, v)] := by
  cases l with
  | nil => exact Or.inl rfl
  | cons p rest =>
    obtain ⟨a, b⟩ := p
    by_cases hp : a = k
    · simp only [dictDel, hp, if_true] at h
      subst h
      subst hp
      exact Or.inr ⟨b, rfl⟩
    · simp only [dictDel, hp, if_false] at h
      exact absurd h (by simp)

end OperationLemmas

/-- C3: every store reachable from the empty store by any sequence of add,
delete and import operations has only positive integer employee keys,
canonical `YYYY-MM-DD` date keys and statuses from the fixed vocabulary,
and no employee key maps to an empty date map (a deletion that empties an
employee's record set removes the employee key itself); being dicts, both
levels also have unique keys. -/
theorem C3_reachable_invariant (st : Store) (h : Reachable st) : StoreInv st :=
  reachable_StoreInv h

/-- Witness for C3: the invariant, evaluated at the concrete store reached
by one `add_record` from the empty store. -/
theorem C3_reachable_invariant_witness :
    StoreInv (add_record 101 "2026-02-01" "Present" []).2 :=
  C3_reachable_invariant _ (Reachable.add 101 "2026-02-01" "Present" [] Reachable.empty)

/-- C1: for every positive employee id, canonical `YYYY-MM-DD` calendar date
string and status in the vocabulary, `add_record` succeeds and `get_records`
then maps that (normalized-to-itself) date key to exactly that status;
re-adding the same (employee, date) pair with another valid status replaces
the stored status (last write wins), and the resulting inner dict has unique
date keys, so at most one status is stored per pair. -/
theorem C1_add_then_get_records (st : Store) (hst : StoreInv st) (e : Int)
    (ds status status₂ : String) (he : 0 < e) (hd : isCanonicalDate ds = true)
    (hs : status ∈ VALID_STATUSES) (hs₂ : status₂ ∈ VALID_STATUSES) :
    ∃ st₁ st₂ : Store,
      add_record e ds status st = (.ok (), st₁) ∧
      (get_records e st₁).bind (fun m => dictGet ds m) = some status ∧
      add_record e ds status₂ st₁ = (.ok (), st₂) ∧
      (get_records e st₂).bind (fun m => dictGet ds m) = some status₂ ∧
      ∀ m, get_records e st₂ = some m → (m.map Prod.fst).Nodup := by
  refine ⟨storeInsert e ds status st, storeInsert e ds status₂ (storeInsert e ds status st),
    add_record_ok st he hd hs, lookup2_storeInsert_self e ds status st,
    add_record_ok _ he hd hs₂, lookup2_storeInsert_self e ds status₂ _, ?_⟩
  intro m hm
  have hinv : StoreInv (storeInsert e ds status₂ (storeInsert e ds status st)) :=
    storeInsert_inv (storeInsert_inv hst he hd hs) he hd hs₂
  exact (hinv.1 (e, m) (dictGet_some_mem hm)).2.2.1

/-- Witness for C1 at employee 7, date `2026-02-01`, statuses `Present` then
`Absent`, starting from the empty store. -/
theorem C1_add_then_get_records_witness :
    ∃ st₁ st₂ : Store,
      add_record 7 "2026-02-01" "Present" [] = (.ok (), st₁) ∧
      (get_records 7 st₁).bind (fun m => dictGet "2026-02-01" m) = some "Present" ∧
      add_record 7 "2026-02-01" "Absent" st₁ = (.ok (), st₂) ∧
      (get_records 7 st₂).bind (fun m => dictGet "2026-02-01" m) = some "Absent" ∧
      ∀ m, get_records 7 st₂ = some m → (m.map Prod.fst).Nodup :=
  C1_add_then_get_records [] (by decide) 7 "2026-02-01" "Present" "Absent"
    (by decide) (by decide) (by decide) (by decide)

/-- C2 counterexample: `"2026-2-1"` has a shape other than canonical
`YYYY-MM-DD`, yet `add_record` accepts it — normalizing it to
`"2026-02-01"` — instead of failing with the date-format error, because
CPython's `%m`/`%d` patterns also accept one-digit month and day. -/
theorem C2_counterexample :
    isCanonicalDate "2026-2-1" = false ∧
    add_record 1 "2026-2-1" "Present" [] =
      (.ok (), [(1, [("2026-02-01", "Present")])]) := by
  exact ⟨rfl, rfl⟩

/-- C2 (amended): `add_record` fails with the employee-id error for every
non-positive id, with the date-format error exactly for strings rejected by
the `%Y-%m-%d` parse (which also accepts non-canonical one-or-two-digit
month/day forms of real calendar dates, storing their canonical
normalization), and with the status error for statuses outside the
vocabulary; each failure leaves the store unchanged, and with all three
validations passed the record is stored under the normalized date. -/
theorem C2_add_validation (st : Store) (e : Int) (d s : String) :
    (e ≤ 0 → add_record e d s st = (.error .invalidEmployeeId, st)) ∧
    (0 < e → parseDateChars d.data = none →
      add_record e d s st = (.error .invalidDateFormat, st)) ∧
    (0 < e → ∀ y mo dy, parseDateChars d.data = some (y, mo, dy) →
      s ∉ VALID_STATUSES → add_record e d s st = (.error .invalidStatus, st)) ∧
    (0 < e → ∀ y mo dy, parseDateChars d.data = some (y, mo, dy) →
      s ∈ VALID_STATUSES →
      add_record e d s st = (.ok (), storeInsert e (isoDate y mo dy) s st)) := by
  refine ⟨?_, ?_, ?_, ?_⟩
  · intro he
    unfold add_record add_recordO validate_emp_id
    rw [if_pos he]
  · intro he hp
    unfold add_record add_recordO
    rw [show validate_emp_id e = .ok () from by
      unfold validate_emp_id
      rw [if_neg (by omega)]]
    dsimp only
    rw [validate_date_none hp]
  · intro he y mo dy hp hs
    unfold add_record add_recordO
    rw [show validate_emp_id e = .ok () from by
      unfold validate_emp_id
      rw [if_neg (by omega)]]
    dsimp only
    rw [validate_date_some hp]
    dsimp only
    unfold validate_status
    dsimp only
    rw [if_neg hs]
  · intro he y mo dy hp hs
    unfold add_record add_recordO
    rw [show validate_emp_id e = .ok () from by
      unfold validate_emp_id
      rw [if_neg (by omega)]]
    dsimp only
    rw [validate_date_some hp]
    dsimp only
    unfold validate_status
    dsimp only
    rw [if_pos hs]

/-- Witness for C2 (amended): the three failures and one success, each at a
concrete input, via the amended theorem. -/
theorem C2_add_validation_witness :
    add_record (-1) "2026-02-01" "Present" [] = (.error .invalidEmployeeId, []) ∧
    add_record 1 "99-01-01" "Present" [] = (.error .invalidDateFormat, []) ∧
    add_record 1 "2026-02-01" "Late" [] = (.error .invalidStatus, []) ∧
    add_record 1 "2026-02-01" "Present" [] =
      (.ok (), storeInsert 1 (isoDate 2026 2 1) "Present" []) :=
  ⟨(C2_add_validation [] (-1) "2026-02-01" "Present").1 (by decide),
   (C2_add_validation [] 1 "99-01-01" "Present").2.1 (by decide) rfl,
   (C2_add_validation [] 1 "2026-02-01" "Late").2.2.1 (by decide) 2026 2 1 rfl (by decide),
   (C2_add_validation [] 1 "2026-02-01" "Present").2.2.2 (by decide) 2026 2 1 rfl (by decide)⟩

/-- C4 counterexample: in the heap-level model, the mapping returned by
`get_all_records` for a one-record store carries the address (0) of
employee 1's inner dict; a caller's write through that inner dict changes
the store's own subsequent `get_records` answer from `Present` to `Absent`,
so the returned mapping is not a defensive copy of the inner maps. -/
theorem C4_counterexample :
    dictGet 1 (hGetAllRecords (hAdd 1 "2026-02-01" "Present" hEmpty).2) = some 0 ∧
    hGetRecords 1 (hAdd 1 "2026-02-01" "Present" hEmpty).2 =
      some [("2026-02-01", "Present")] ∧
    hGetRecords 1 (mutateInner 0 "2026-02-01" "Absent"
      (hAdd 1 "2026-02-01" "Present" hEmpty).2) = some [("2026-02-01", "Absent")] :=
  ⟨rfl, rfl, rfl⟩

/-- C4 (amended): `get_all_records` returns a shallow copy — a fresh
top-level mapping equal to the store's own employee-to-inner-dict table
(so replacing entries in the returned value cannot alter the store's
table), but sharing the inner dicts: a write through an inner dict reached
from the returned mapping is visible in the store's subsequent
`get_records`. -/
theorem C4_shallow_copy (h : HStore) (e : Int) (a : Nat)
    (ha : dictGet e (hGetAllRecords h) = some a) (d s : String) :
    hGetAllRecords h = h.outer ∧
    hGetRecords e (mutateInner a d s h) = some (dictSet d s (heapAt a h)) := by
  refine ⟨rfl, ?_⟩
  have ha' : dictGet e h.outer = some a := ha
  simp only [hGetRecords, mutateInner, heapAt, ha', Option.map_some', dictGet_dictSet_self,
    Option.getD_some]

/-- Witness for C4 (amended), at the concrete one-record heap store. -/
theorem C4_shallow_copy_witness :
    hGetRecords 1 (mutateInner 0 "2026-02-01" "Absent"
        (hAdd 1 "2026-02-01" "Present" hEmpty).2) =
      some (dictSet "2026-02-01" "Absent"
        (heapAt 0 (hAdd 1 "2026-02-01" "Present" hEmpty).2)) :=
  (C4_shallow_copy (hAdd 1 "2026-02-01" "Present" hEmpty).2 1 0 rfl
    "2026-02-01" "Absent").2

/-- C5: `delete_record` validates the date before anything else — a
malformed date fails with the date-format error (store unchanged) whether
or not the record exists; on a well-formed date it returns false without
mutating anything when the employee or normalized date is absent, and
otherwise returns true, removes exactly that entry (other dates and other
employees unchanged), removing the employee key precisely when that was the
employee's last record. -/
theorem C5_delete_spec (st : Store) (hst : StoreInv st) (e : Int) (d : String) :
    (parseDateChars d.data = none →
      delete_record e d st = (.error .invalidDateFormat, st)) ∧
    (∀ nd, validate_date (some d) = .ok nd →
      (lookup2 e nd st = none → delete_record e d st = (.ok false, st)) ∧
      (∀ m, dictGet e st = some m → (dictGet nd m).isSome = true →
        (delete_record e d st).1 = .ok true ∧
        lookup2 e nd (delete_record e d st).2 = none ∧
        (∀ d', d' ≠ nd → lookup2 e d' (delete_record e d st).2 = lookup2 e d' st) ∧
        (∀ e', e' ≠ e → dictGet e' (delete_record e d st).2 = dictGet e' st) ∧
        (dictGet e (delete_record e d st).2 = none ↔ dictDel nd m = []))) := by
  constructor
  · intro hp
    unfold delete_record
    rw [validate_date_none hp]
  · intro nd hv
    constructor
    · intro hlk
      unfold delete_record
      rw [hv]
      dsimp only
      unfold lookup2 at hlk
      rcases hg : dictGet e st with _ | m
      · rfl
      · rw [hg] at hlk
        simp only [Option.some_bind] at hlk
        dsimp only
        rw [show (dictGet nd m).isSome = false from by rw [hlk]; rfl]
        rfl
    · intro m hg hin
      have hdel : delete_record e d st =
          (.ok true, if dictDel nd m = [] then dictDel e st
            else dictSet e (dictDel nd m) st) := by
        unfold delete_record
        rw [hv]
        dsimp only
        rw [hg]
        dsimp only
        rw [if_pos hin]
        show (if dictDel nd m = [] then ((Except.ok true : Except AttErr Bool), dictDel e st)
          else (Except.ok true, dictSet e (dictDel nd m) st)) = _
        by_cases hnil : dictDel nd m = []
        · rw [if_pos hnil, if_pos hnil]
        · rw [if_neg hnil, if_neg hnil]
      have hm := hst.1 (e, m) (dictGet_some_mem hg)
      rw [hdel]
      dsimp only
      by_cases hnil : dictDel nd m = []
      · rw [if_pos hnil]
        refine ⟨rfl, ?_, ?_, ?_, ?_⟩
        · unfold lookup2
          rw [dictGet_dictDel_self hst.2]
          rfl
        · intro d' hd'
          rcases dictDel_eq_nil hnil with hm0 | ⟨v, hm1⟩
          · rw [hm0] at hg
            exact absurd rfl (by rw [hm0] at hm; exact hm.2.1)
          · unfold lookup2
            rw [dictGet_dictDel_self hst.2, hg, hm1]
            simp only [Option.none_bind, Option.some_bind]
            rw [show dictGet d' [(nd, v)] = none from by
              have hnd : ¬(nd = d') := fun hh => hd' hh.symm
              simp [dictGet, hnd]]
        · intro e' he'
          exact dictGet_dictDel_ne st he'
        · simp [dictGet_dictDel_self hst.2, hnil]
      · rw [if_neg hnil]
        refine ⟨rfl, ?_, ?_, ?_, ?_⟩
        · unfold lookup2
          rw [dictGet_dictSet_self]
          simp only [Option.some_bind]
          exact dictGet_dictDel_self hm.2.2.1
        · intro d' hd'
          unfold lookup2
          rw [dictGet_dictSet_self, hg]
          simp only [Option.some_bind]
          exact dictGet_dictDel_ne m hd'
        · intro e' he'
          exact dictGet_dictSet_ne _ st he'
        · rw [dictGet_dictSet_self]
          simp [hnil]

/-- Witness for C5: the three outcomes at concrete inputs over the
one-record store for employee 1 — malformed date, successful delete of the
only record (employee key removed), and the false result for an absent
employee. -/
theorem C5_delete_spec_witness :
    delete_record 1 "bad" [(1, [("2026-02-01", "Present")])] =
      (.error .invalidDateFormat, [(1, [("2026-02-01", "Present")])]) ∧
    (delete_record 1 "2026-02-01" [(1, [("2026-02-01", "Present")])]).1 = .ok true ∧
    dictGet 1 (delete_record 1 "2026-02-01" [(1, [("2026-02-01", "Present")])]).2 = none ∧
    delete_record 3 "2026-02-01" [(1, [("2026-02-01", "Present")])] =
      (.ok false, [(1, [("2026-02-01", "Present")])]) := by
  have h := C5_delete_spec [(1, [("2026-02-01", "Present")])] (by decide) 1 "2026-02-01"
  have h3 := C5_delete_spec [(1, [("2026-02-01", "Present")])] (by decide) 3 "2026-02-01"
  have hbad := (C5_delete_spec [(1, [("2026-02-01", "Present")])] (by decide) 1 "bad").1 rfl
  have hex := (h.2 "2026-02-01" rfl).2 [("2026-02-01", "Present")] rfl rfl
  refine ⟨hbad, hex.1, ?_, (h3.2 "2026-02-01" rfl).1 rfl⟩
  exact hex.2.2.2.2.mpr rfl

/-- C10: `get_summary` returns the not-found signal exactly when the
employee has no entry in the store; otherwise it returns the mapping whose
keys are exactly `Present`, `Absent`, `Leave` in that order, each mapped to
the number of the employee's records with that status (zero when none). -/
theorem C10_get_summary (st : Store) (hst : StoreInv st) (e : Int) :
    (get_summary e st = .ok none ↔ dictGet e st = none) ∧
    (∀ m, dictGet e st = some m →
      get_summary e st = .ok (some
        [("Present", countStatus "Present" m), ("Absent", countStatus "Absent" m),
          ("Leave", countStatus "Leave" m)])) := by
  have hmain : ∀ m, dictGet e st = some m →
      get_summary e st = .ok (some
        [("Present", countStatus "Present" m), ("Absent", countStatus "Absent" m),
          ("Leave", countStatus "Leave" m)]) := by
    intro m hg
    have hvalid : ∀ p ∈ m, p.2 ∈ VALID_STATUSES := fun p hp =>
      ((hst.1 (e, m) (dictGet_some_mem hg)).2.2.2 p hp).2
    unfold get_summary
    rw [hg]
    dsimp only
    unfold summarize
    rw [summarizeGo_valid hvalid 0 0 0]
    simp [Nat.zero_add]
  refine ⟨⟨?_, ?_⟩, hmain⟩
  · intro hok
    rcases hg : dictGet e st with _ | m
    · rfl
    · rw [hmain m hg] at hok
      exact absurd hok (by simp)
  · intro hg
    unfold get_summary
    rw [hg]

/-- Witness for C10: one `Present` record yields the zero-filled summary
`{Present: 1, Absent: 0, Leave: 0}`. -/
theorem C10_get_summary_witness :
    get_summary 1 [(1, [("2026-02-01", "Present")])] =
      .ok (some [("Present", 1), ("Absent", 0), ("Leave", 0)]) := by
  have h := (C10_get_summary [(1, [("2026-02-01", "Present")])] (by decide) 1).2
    [("2026-02-01", "Present")] rfl
  rw [h]
  rfl

/-- C9: `get_attendance_rate` returns the not-found signal exactly when the
employee has no entry; otherwise it returns 0 if the employee's record count
is zero and (Present count / total count) × 100 otherwise, with division
modelled exactly (no rounding). -/
theorem C9_get_attendance_rate (st : Store) (hst : StoreInv st) (e : Int) :
    (get_attendance_rate e st = .ok none ↔ dictGet e st = none) ∧
    (∀ m, dictGet e st = some m →
      get_attendance_rate e st = .ok (some
        (if m.length = 0 then 0
          else (countStatus "Present" m : ℚ) / (m.length : ℚ) * 100))) := by
  have hmain : ∀ m, dictGet e st = some m →
      get_attendance_rate e st = .ok (some
        (if m.length = 0 then 0
          else (countStatus "Present" m : ℚ) / (m.length : ℚ) * 100)) := by
    intro m hg
    have hvalid : ∀ p ∈ m, p.2 ∈ VALID_STATUSES := fun p hp =>
      ((hst.1 (e, m) (dictGet_some_mem hg)).2.2.2 p hp).2
    have htot := countStatus_total hvalid
    unfold get_attendance_rate
    rw [hg]
    dsimp only
    rw [summarizeGo_valid hvalid 0 0 0]
    dsimp only
    simp only [Nat.zero_add]
    rw [htot]
    by_cases hz : m.length = 0
    · rw [if_pos hz, if_pos hz]
    · rw [if_neg hz, if_neg hz]
  refine ⟨⟨?_, ?_⟩, hmain⟩
  · intro hok
    rcases hg : dictGet e st with _ | m
    · rfl
    · rw [hmain m hg] at hok
      exact absurd hok (by simp)
  · intro hg
    unfold get_attendance_rate
    rw [hg]

/-- Witness for C9: one `Present` and one `Absent` record give the rate
exactly 50. -/
theorem C9_get_attendance_rate_witness :
    get_attendance_rate 1 [(1, [("2026-01-01", "Present"), ("2026-01-02", "Absent")])] =
      .ok (some 50) := by
  have h := (C9_get_attendance_rate
    [(1, [("2026-01-01", "Present"), ("2026-01-02", "Absent")])] (by decide) 1).2
    [("2026-01-01", "Present"), ("2026-01-02", "Absent")] rfl
  rw [h]
  rw [show countStatus "Present"
    [("2026-01-01", "Present"), ("2026-01-02", "Absent")] = 1 from rfl]
  norm_num

section FilterLemmas

theorem dictGet_rangeFilter (ns ne d : String) (m : Inner) :
    dictGet d (rangeFilter ns ne m) =
      if strLe ns d && strLe d ne then dictGet d m else none := by
  induction m with
  | nil => simp [rangeFilter, dictGet]
  | cons p rest ih =>
    obtain ⟨a, b⟩ := p
    by_cases had : a = d
    · subst had
      by_cases hpa : (strLe ns a && strLe a ne) = true
      · simp [rangeFilter, List.filter_cons, hpa, dictGet]
      · simp only [rangeFilter, List.filter_cons] at ih ⊢
        simp only [hpa, if_false, Bool.false_eq_true]
        rw [ih, if_neg (by simp [hpa])]
    · by_cases hpa : (strLe ns a && strLe a ne) = true
      · simp only [rangeFilter, List.filter_cons] at ih ⊢
        simp only [hpa, if_true]
        simp only [dictGet, had, if_false]
        rw [ih]
      · simp only [rangeFilter, List.filter_cons] at ih ⊢
        simp only [hpa, if_false, Bool.false_eq_true]
        rw [ih]
        simp only [dictGet, had, if_false]

theorem dictGet_filterShape_absent (f : Inner → Inner) (rest : Store) (e : Int)
    (he : e ∉ rest.map Prod.fst) :
    dictGet e (rest.filterMap (fun q =>
      if (f q.2).isEmpty then none else some (q.1, f q.2))) = none := by
  rw [dictGet_none_iff]
  intro hmem
  rcases List.mem_map.mp hmem with ⟨p, hp, hp1⟩
  rcases List.mem_filterMap.mp hp with ⟨q, hq, hgq⟩
  by_cases hemp : (f q.2).isEmpty
  · rw [if_pos hemp] at hgq
    exact absurd hgq (by simp)
  · rw [if_neg hemp] at hgq
    simp only [Option.some.injEq] at hgq
    apply he
    refine List.mem_map.mpr ⟨q, hq, ?_⟩
    rw [← hp1, ← hgq]

theorem dictGet_filterShape (f : Inner → Inner) (st : Store)
    (hn : (st.map Prod.fst).Nodup) (e : Int) :
    dictGet e (st.filterMap (fun q =>
        if (f q.2).isEmpty then none else some (q.1, f q.2))) =
      match dictGet e st with
      | none => none
      | some m => if (f m).isEmpty then none else some (f m) := by
  induction st with
  | nil => simp [dictGet]
  | cons q rest ih =>
    obtain ⟨a, b⟩ := q
    simp only [List.map_cons, List.nodup_cons] at hn
    by_cases hae : a = e
    · subst hae
      by_cases hemp : (f b).isEmpty
      · simp only [List.filterMap_cons, hemp, if_true]
        rw [dictGet_filterShape_absent f rest a hn.1]
        simp [dictGet, hemp]
      · simp only [List.filterMap_cons, hemp, if_false]
        simp [dictGet, hemp]
    · by_cases hemp : (f b).isEmpty
      · simp only [List.filterMap_cons, hemp, if_true]
        rw [ih hn.2]
        simp [dictGet, hae]
      · simp only [List.filterMap_cons, hemp, if_false]
        simp only [dictGet, hae, if_false]
        exact ih hn.2

theorem filterMapShape_nil (f : Inner → Inner) (st : Store)
    (hall : ∀ m : Inner, f m = []) :
    st.filterMap (fun q => if (f q.2).isEmpty then none else some (q.1, f q.2)) = [] := by
  induction st with
  | nil => rfl
  | cons q rest ih =>
    rw [List.filterMap_cons, hall q.2]
    simp only [List.isEmpty_nil, if_true]
    exact ih

end FilterLemmas

/-- C6: for valid boundary dates the filter returns exactly the records
whose date key lies between the two normalized bounds inclusively, under
lexicographic string comparison; an employee appears in the result exactly
when at least one of their records falls in the range — never with an empty
inner map — and when the start bound exceeds the end bound the result is
empty. -/
theorem C6_filter_by_date_range (st : Store) (hst : StoreInv st) (sd ed ns ne : String)
    (hs : validate_date (some sd) = .ok ns) (he : validate_date (some ed) = .ok ne) :
    ∃ res, filter_by_date_range sd ed st = .ok res ∧
      (∀ e d', lookup2 e d' res =
        if strLe ns d' && strLe d' ne then lookup2 e d' st else none) ∧
      (∀ e m', dictGet e res = some m' → m' ≠ []) ∧
      (∀ e, (∃ m', dictGet e res = some m') ↔
        (∃ m, dictGet e st = some m ∧ rangeFilter ns ne m ≠ [])) ∧
      (strLe ns ne = false → res = []) := by
  refine ⟨st.filterMap (fun q =>
      if (rangeFilter ns ne q.2).isEmpty then none
      else some (q.1, rangeFilter ns ne q.2)), ?_, ?_, ?_, ?_, ?_⟩
  · unfold filter_by_date_range
    rw [hs]
    dsimp only
    rw [he]
  · intro e d'
    unfold lookup2
    rw [dictGet_filterShape (rangeFilter ns ne) st hst.2 e]
    rcases hg : dictGet e st with _ | m
    · simp
    · dsimp only
      by_cases hemp : (rangeFilter ns ne m).isEmpty
      · rw [if_pos hemp]
        have h0 := dictGet_rangeFilter ns ne d' m
        rw [List.isEmpty_iff.mp hemp] at h0
        simp only [Option.none_bind, Option.some_bind]
        rw [← h0]
        rfl
      · rw [if_neg hemp]
        simp only [Option.some_bind]
        exact dictGet_rangeFilter ns ne d' m
  · intro e m' hres
    rw [dictGet_filterShape (rangeFilter ns ne) st hst.2 e] at hres
    rcases hg : dictGet e st with _ | m <;> rw [hg] at hres
    · exact absurd hres (by simp)
    · dsimp only at hres
      by_cases hemp : (rangeFilter ns ne m).isEmpty
      · rw [if_pos hemp] at hres
        exact absurd hres (by simp)
      · rw [if_neg hemp] at hres
        simp only [Option.some.injEq] at hres
        subst hres
        intro hnil
        exact hemp (List.isEmpty_iff.mpr hnil)
  · intro e
    rw [dictGet_filterShape (rangeFilter ns ne) st hst.2 e]
    rcases hg : dictGet e st with _ | m
    · simp
    · dsimp only
      by_cases hemp : (rangeFilter ns ne m).isEmpty
      · rw [if_pos hemp]
        simp [List.isEmpty_iff.mp hemp]
      · rw [if_neg hemp]
        constructor
        · intro _
          exact ⟨m, rfl, fun hnil => hemp (List.isEmpty_iff.mpr hnil)⟩
        · intro _
          exact ⟨rangeFilter ns ne m, rfl⟩
  · intro hse
    apply filterMapShape_nil
    intro m
    unfold rangeFilter
    induction m with
    | nil => rfl
    | cons p rest ihm =>
      rw [List.filter_cons]
      have hcond : ¬((strLe ns p.1 && strLe p.1 ne) = true) := by
        intro hb
        rw [Bool.and_eq_true] at hb
        have htr := charsLe_trans hb.1 hb.2
        rw [show charsLe ns.data ne.data = strLe ns ne from rfl, hse] at htr
        exact absurd htr (by simp)
      rw [if_neg hcond]
      exact ihm

/-- Witness for C6: records on `2026-02-01` and `2026-02-05` filtered with
the range `2026-02-01`..`2026-02-03` keep only the first record, alongside
the full specification instantiated there through the theorem. -/
theorem C6_filter_by_date_range_witness :
    filter_by_date_range "2026-02-01" "2026-02-03"
        [(1, [("2026-02-01", "Present"), ("2026-02-05", "Absent")])] =
      .ok [(1, [("2026-02-01", "Present")])] ∧
    (∃ res, filter_by_date_range "2026-02-01" "2026-02-03"
        [(1, [("2026-02-01", "Present"), ("2026-02-05", "Absent")])] = .ok res ∧
      (∀ e d', lookup2 e d' res =
        if strLe "2026-02-01" d' && strLe d' "2026-02-03" then
          lookup2 e d' [(1, [("2026-02-01", "Present"), ("2026-02-05", "Absent")])]
        else none) ∧
      (∀ e m', dictGet e res = some m' → m' ≠ []) ∧
      (∀ e, (∃ m', dictGet e res = some m') ↔
        (∃ m, dictGet e [(1, [("2026-02-01", "Present"), ("2026-02-05", "Absent")])] =
            some m ∧ rangeFilter "2026-02-01" "2026-02-03" m ≠ [])) ∧
      (strLe "2026-02-01" "2026-02-03" = false → res = [])) :=
  ⟨rfl, C6_filter_by_date_range
    [(1, [("2026-02-01", "Present"), ("2026-02-05", "Absent")])] (by decide)
    "2026-02-01" "2026-02-03" "2026-02-01" "2026-02-03" rfl rfl⟩

section ImportLemmas

theorem add_recordO_error_snd {e : Int} {dopt sopt : Option String} {st st₂ : Store}
    {err : AttErr} (h : add_recordO e dopt sopt st = (.error err, st₂)) : st₂ = st := by
  unfold add_recordO at h
  rcases hv1 : validate_emp_id e with err1 | u <;> rw [hv1] at h <;> dsimp only at h
  · exact (congrArg Prod.snd h).symm
  · rcases hv2 : validate_date dopt with err2 | nd <;> rw [hv2] at h <;> dsimp only at h
    · exact (congrArg Prod.snd h).symm
    · rcases hv3 : validate_status sopt with err3 | sv <;> rw [hv3] at h <;> dsimp only at h
      · exact (congrArg Prod.snd h).symm
      · exact absurd (congrArg Prod.fst h) (by simp)

theorem importGo_eq_bestEffort (header : List String) :
    ∀ (rows : List (List String)) (st : Store) (c : Nat),
      (∀ r ∈ rows, r ≠ [] → rowGet header r "Employee_ID" ≠ .ok none) →
      importGo header rows st c =
        some (rows.foldl (fun acc row =>
          match tryAddRow header row acc.1 with
          | some st' => (st', acc.2 + 1)
          | none => acc) (st, c)) := by
  intro rows
  induction rows with
  | nil => intro st c _; rfl
  | cons row rest ih =>
    intro st c hsafe
    have hsafe' : ∀ r ∈ rest, r ≠ [] → rowGet header r "Employee_ID" ≠ .ok none :=
      fun r hr => hsafe r (List.mem_cons_of_mem _ hr)
    rw [List.foldl_cons]
    unfold importGo
    by_cases hrow : row = []
    · rw [if_pos hrow]
      have hstep : (match tryAddRow header row st with
          | some st' => (st', c + 1)
          | none => (st, c)) = (st, c) := by
        unfold tryAddRow
        rw [if_pos hrow]
      rw [hstep]
      exact ih st c hsafe'
    · rw [if_neg hrow]
      rcases hg1 : rowGet header row "Employee_ID" with e1 | o1
      · have hstep : (match tryAddRow header row st with
            | some st' => (st', c + 1)
            | none => (st, c)) = (st, c) := by
          unfold tryAddRow
          rw [if_neg hrow, hg1]
        rw [hstep]
        exact ih st c hsafe'
      · rcases o1 with _ | empStr
        · exact absurd hg1 (hsafe row (List.mem_cons_self _ _) hrow)
        · dsimp only
          rcases hg2 : pyIntChars empStr.data with _ | e
          · have hstep : (match tryAddRow header row st with
                | some st' => (st', c + 1)
                | none => (st, c)) = (st, c) := by
              unfold tryAddRow
              rw [if_neg hrow, hg1]
              dsimp only
              rw [hg2]
            rw [hstep]
            exact ih st c hsafe'
          · dsimp only
            rcases hg3 : rowGet header row "Date" with e3 | dopt
            · have hstep : (match tryAddRow header row st with
                  | some st' => (st', c + 1)
                  | none => (st, c)) = (st, c) := by
                unfold tryAddRow
                rw [if_neg hrow, hg1]
                dsimp only
                rw [hg2]
                dsimp only
                rw [hg3]
              rw [hstep]
              exact ih st c hsafe'
            · rcases hg4 : rowGet header row "Status" with e4 | sopt
              · have hstep : (match tryAddRow header row st with
                    | some st' => (st', c + 1)
                    | none => (st, c)) = (st, c) := by
                  unfold tryAddRow
                  rw [if_neg hrow, hg1]
                  dsimp only
                  rw [hg2]
                  dsimp only
                  rw [hg3, hg4]
                rw [hstep]
                exact ih st c hsafe'
              · dsimp only
                rcases hadd : add_recordO e dopt sopt st with ⟨r, st₂⟩
                rcases r with err | u
                · have hst2 : st₂ = st := add_recordO_error_snd hadd
                  have hstep : (match tryAddRow header row st with
                      | some st' => (st', c + 1)
                      | none => (st, c)) = (st, c) := by
                    unfold tryAddRow
                    rw [if_neg hrow, hg1]
                    dsimp only
                    rw [hg2]
                    dsimp only
                    rw [hg3, hg4]
                    dsimp only
                    rw [hadd]
                  rw [hstep]
                  dsimp only
                  rw [hst2]
                  exact ih st c hsafe'
                · have hstep : (match tryAddRow header row st with
                      | some st' => (st', c + 1)
                      | none => (st, c)) = (st₂, c + 1) := by
                    unfold tryAddRow
                    rw [if_neg hrow, hg1]
                    dsimp only
                    rw [hg2]
                    dsimp only
                    rw [hg3, hg4]
                    dsimp only
                    rw [hadd]
                  rw [hstep]
                  dsimp only
                  exact ih st₂ (c + 1) hsafe'

end ImportLemmas

/-- C8 counterexample: in a file whose header lists `Employee_ID` last, the
structurally incomplete first data row (it lacks the Employee_ID field) is
not skipped: `row["Employee_ID"]` is the `restval` `None`, `int(None)`
raises `TypeError` — which `except (ValueError, KeyError)` does not catch —
and the whole import aborts, never reaching the valid row after it and
returning no count, where the claim requires the row to be skipped and
the run to continue. -/
theorem C8_counterexample :
    import_from_csv
      [["Date", "Status", "Employee_ID"],
       ["2026-01-01", "Present"],
       ["1", "2026-01-02", "Present"]] [] = none := rfl

/-- C8 (amended): tabular import is best-effort per row for every file in
which each non-empty data row supplies its `Employee_ID` field (in
particular whenever that column is first, as in exported files): rows whose
fields pass the `add` validation are added and counted, rows failing
validation or lacking the Date/Status fields are skipped without aborting
and without changing the store, and the count of added rows is returned;
a non-empty row lacking the `Employee_ID` field instead aborts the whole
run with an uncaught `TypeError`. -/
theorem C8_import_best_effort (header : List String) (rows : List (List String))
    (st : Store)
    (hsafe : ∀ r ∈ rows, r ≠ [] → rowGet header r "Employee_ID" ≠ .ok none) :
    import_from_csv (header :: rows) st = some (bestEffortImport (header :: rows) st) := by
  unfold import_from_csv bestEffortImport
  exact importGo_eq_bestEffort header rows st 0 hsafe

/-- Witness for C8 (amended): a file with a bad id, a bad date, a bad
status and a short row (missing the Status field) around one valid row;
only the valid row is imported and the count is 1. -/
theorem C8_import_best_effort_witness :
    import_from_csv
      [["Employee_ID", "Date", "Status"],
       ["0", "2026-01-01", "Present"],
       ["1", "bad", "Present"],
       ["1", "2026-01-03", "Late"],
       ["1", "2026-01-03"],
       ["1", "2026-01-04", "Present"]] [] =
      some (bestEffortImport
        [["Employee_ID", "Date", "Status"],
         ["0", "2026-01-01", "Present"],
         ["1", "bad", "Present"],
         ["1", "2026-01-03", "Late"],
         ["1", "2026-01-03"],
         ["1", "2026-01-04", "Present"]] []) ∧
    bestEffortImport
      [["Employee_ID", "Date", "Status"],
       ["0", "2026-01-01", "Present"],
       ["1", "bad", "Present"],
       ["1", "2026-01-03", "Late"],
       ["1", "2026-01-03"],
       ["1", "2026-01-04", "Present"]] [] =
      ([(1, [("2026-01-04", "Present")])], 1) :=
  ⟨C8_import_best_effort ["Employee_ID", "Date", "Status"]
    [["0", "2026-01-01", "Present"],
     ["1", "bad", "Present"],
     ["1", "2026-01-03", "Late"],
     ["1", "2026-01-03"],
     ["1", "2026-01-04", "Present"]] [] (by decide), rfl⟩

section RoundtripLemmas

theorem flatten_map_perm_congr {α β : Type} (f g : α → List β) (l : List α)
    (h : ∀ x ∈ l, (f x).Perm (g x)) :
    ((l.map f).flatten).Perm ((l.map g).flatten) := by
  induction l with
  | nil => rfl
  | cons x rest ih =>
    simp only [List.map_cons, List.flatten_cons]
    exact (h x (List.mem_cons_self x rest)).append
      (ih (fun y hy => h y (List.mem_cons_of_mem x hy)))

theorem exportTriples_perm (st : Store) : (exportTriples st).Perm (flatStore st) := by
  unfold exportTriples flatStore
  have h1 : (((sortByKey st).map
        (fun q => (sortByDate q.2).map (fun p => (q.1, p.1, p.2)))).flatten).Perm
      (((sortByKey st).map (fun q => q.2.map (fun p => (q.1, p.1, p.2)))).flatten) :=
    flatten_map_perm_congr _ _ _ (fun q _ =>
      (List.perm_insertionSort (fun a b => strLe a.1 b.1 = true) q.2).map _)
  have h2 : ((sortByKey st).map (fun q => q.2.map (fun p => (q.1, p.1, p.2)))).Perm
      (st.map (fun q => q.2.map (fun p => (q.1, p.1, p.2)))) :=
    (List.perm_insertionSort (fun a b => a.1 ≤ b.1) st).map _
  exact h1.trans h2.flatten

theorem mem_flatStore {st : Store} {t : Int × String × String} :
    t ∈ flatStore st ↔ ∃ q ∈ st, ∃ p ∈ q.2, t = (q.1, p.1, p.2) := by
  unfold flatStore
  rw [List.mem_flatten]
  constructor
  · rintro ⟨l, hl, htl⟩
    rcases List.mem_map.mp hl with ⟨q, hq, rfl⟩
    rcases List.mem_map.mp htl with ⟨p, hp, heq⟩
    exact ⟨q, hq, p, hp, heq.symm⟩
  · rintro ⟨q, hq, p, hp, rfl⟩
    exact ⟨q.2.map (fun p => (q.1, p.1, p.2)), List.mem_map.mpr ⟨q, hq, rfl⟩,
      List.mem_map.mpr ⟨p, hp, rfl⟩⟩

theorem flatStore_mem_iff {st : Store} (hst : StoreInv st) (e : Int) (d s : String) :
    (e, d, s) ∈ flatStore st ↔ lookup2 e d st = some s := by
  rw [mem_flatStore]
  constructor
  · rintro ⟨⟨a, m⟩, hq, ⟨dd, ss⟩, hp, heq⟩
    simp only [Prod.mk.injEq] at heq
    obtain ⟨h1, h2, h3⟩ := heq
    subst h1
    subst h2
    subst h3
    unfold lookup2
    rw [mem_dictGet_of_nodup hst.2 hq]
    simp only [Option.some_bind]
    exact mem_dictGet_of_nodup (hst.1 (e, m) hq).2.2.1 hp
  · intro hlk
    unfold lookup2 at hlk
    rcases hg : dictGet e st with _ | m <;> rw [hg] at hlk
    · exact absurd hlk (by simp)
    · simp only [Option.some_bind] at hlk
      exact ⟨(e, m), dictGet_some_mem hg, (d, s), dictGet_some_mem hlk, rfl⟩

theorem flatStore_cons (q : Int × Inner) (rest : Store) :
    flatStore (q :: rest) = q.2.map (fun p => (q.1, p.1, p.2)) ++ flatStore rest := by
  unfold flatStore
  rw [List.map_cons, List.flatten_cons]

theorem flatStore_pairs_nodup_aux : ∀ st : Store,
    (∀ q ∈ st, (q.2.map Prod.fst).Nodup) → (st.map Prod.fst).Nodup →
    ((flatStore st).map (fun t => (t.1, t.2.1))).Nodup := by
  intro st
  induction st with
  | nil => intro _ _; simp [flatStore]
  | cons q rest ih =>
    intro hinner hkeys
    obtain ⟨a, b⟩ := q
    simp only [List.map_cons, List.nodup_cons] at hkeys
    rw [flatStore_cons, List.map_append, List.nodup_append]
    refine ⟨?_, ?_, ?_⟩
    · rw [List.map_map]
      have hcomp : ((fun t : Int × String × String => (t.1, t.2.1)) ∘
          (fun p : String × String => ((a, p.1, p.2) : Int × String × String))) =
          fun p : String × String => ((a, p.1) : Int × String) := rfl
      rw [hcomp]
      have hmm : b.map (fun p => ((a : Int), p.1)) =
          (b.map Prod.fst).map (fun k => (a, k)) := by
        rw [List.map_map]
        rfl
      rw [hmm]
      have hinj : Function.Injective (fun k : String => ((a, k) : Int × String)) := by
        intro x y hxy
        simpa using hxy
      exact (hinner (a, b) (List.mem_cons_self _ _)).map hinj
    · exact ih (fun q hq => hinner q (List.mem_cons_of_mem _ hq)) hkeys.2
    · intro x hx hx'
      rw [List.map_map] at hx
      rcases List.mem_map.mp hx with ⟨p, hp, rfl⟩
      rcases List.mem_map.mp hx' with ⟨t, ht, hteq⟩
      rcases mem_flatStore.mp ht with ⟨q', hq', p', hp', rfl⟩
      have ha : q'.1 = a := congrArg Prod.fst hteq
      exact hkeys.1 (ha ▸ List.mem_map.mpr ⟨q', hq', rfl⟩)

theorem flatStore_pairs_nodup {st : Store} (hst : StoreInv st) :
    ((flatStore st).map (fun t => (t.1, t.2.1))).Nodup :=
  flatStore_pairs_nodup_aux st (fun q hq => (hst.1 q hq).2.2.1) hst.2

theorem length_flatStore (st : Store) : (flatStore st).length = storeSize st := by
  unfold flatStore storeSize
  rw [List.length_flatten, List.map_map]
  congr 1
  refine List.map_congr_left (fun q _ => ?_)
  simp [List.length_map]

theorem export_rows_eq (st : Store) :
    export_to_csv st = ["Employee_ID", "Date", "Status"] ::
      (exportTriples st).map (fun t => [intStr t.1, t.2.1, t.2.2]) := by
  unfold export_to_csv exportTriples
  congr 1
  rw [List.map_flatten, List.map_map]
  congr 1
  refine List.map_congr_left (fun q _ => ?_)
  show (sortByDate q.2).map (fun p => [intStr q.1, p.1, p.2]) =
    ((sortByDate q.2).map (fun p => (q.1, p.1, p.2))).map
      (fun t => [intStr t.1, t.2.1, t.2.2])
  rw [List.map_map]
  rfl

theorem rowGet_std_emp (a b c : String) :
    rowGet ["Employee_ID", "Date", "Status"] [a, b, c] "Employee_ID" = .ok (some a) := rfl

theorem rowGet_std_date (a b c : String) :
    rowGet ["Employee_ID", "Date", "Status"] [a, b, c] "Date" = .ok (some b) := rfl

theorem rowGet_std_status (a b c : String) :
    rowGet ["Employee_ID", "Date", "Status"] [a, b, c] "Status" = .ok (some c) := rfl

theorem importGo_valid_triples :
    ∀ (ts : List (Int × String × String)) (st0 : Store) (c : Nat),
      (∀ t ∈ ts, 0 < t.1 ∧ isCanonicalDate t.2.1 = true ∧ t.2.2 ∈ VALID_STATUSES) →
      importGo ["Employee_ID", "Date", "Status"]
        (ts.map (fun t => [intStr t.1, t.2.1, t.2.2])) st0 c =
        some (foldStore ts st0, c + ts.length) := by
  intro ts
  induction ts with
  | nil =>
    intro st0 c _
    simp [importGo, foldStore]
  | cons t rest ih =>
    intro st0 c hval
    have ht := hval t (List.mem_cons_self _ _)
    simp only [List.map_cons]
    unfold importGo
    rw [if_neg (by simp)]
    rw [rowGet_std_emp]
    dsimp only
    rw [pyInt_intStr ht.1]
    dsimp only
    rw [rowGet_std_date, rowGet_std_status]
    dsimp only
    rw [show add_recordO t.1 (some t.2.1) (some t.2.2) st0 =
      (.ok (), storeInsert t.1 t.2.1 t.2.2 st0) from add_record_ok st0 ht.1 ht.2.1 ht.2.2]
    dsimp only
    rw [ih (storeInsert t.1 t.2.1 t.2.2 st0) (c + 1)
      (fun t' ht' => hval t' (List.mem_cons_of_mem _ ht'))]
    have h1 : foldStore (t :: rest) st0 = foldStore rest (storeInsert t.1 t.2.1 t.2.2 st0) :=
      rfl
    rw [h1, List.length_cons]
    have h2 : c + 1 + rest.length = c + (rest.length + 1) := by omega
    rw [h2]

theorem lookup2_foldStore :
    ∀ (ts : List (Int × String × String)) (st0 : Store) (e : Int) (d : String),
      ((ts.map (fun t => (t.1, t.2.1))).Nodup) →
      lookup2 e d (foldStore ts st0) =
        (match ts.find? (fun t => t.1 = e && t.2.1 = d) with
         | some t => some t.2.2
         | none => lookup2 e d st0) := by
  intro ts
  induction ts with
  | nil =>
    intro st0 e d _
    rfl
  | cons t rest ih =>
    intro st0 e d hnd
    simp only [List.map_cons, List.nodup_cons] at hnd
    have hfold : foldStore (t :: rest) st0 = foldStore rest (storeInsert t.1 t.2.1 t.2.2 st0) :=
      rfl
    rw [hfold, ih _ e d hnd.2]
    by_cases hp : ((fun t : Int × String × String => t.1 = e && t.2.1 = d) t) = true
    · have hp' := hp
      rw [Bool.and_eq_true, decide_eq_true_eq, decide_eq_true_eq] at hp'
      have hfind : List.find? (fun t => t.1 = e && t.2.1 = d) (t :: rest) = some t :=
        List.find?_cons_of_pos _ hp
      rw [hfind]
      have hnone : List.find? (fun t => t.1 = e && t.2.1 = d) rest = none := by
        rw [List.find?_eq_none]
        intro x hx hpx
        rw [Bool.and_eq_true, decide_eq_true_eq, decide_eq_true_eq] at hpx
        apply hnd.1
        refine List.mem_map.mpr ⟨x, hx, ?_⟩
        rw [hpx.1, hpx.2, hp'.1, hp'.2]
      rw [hnone]
      rw [hp'.1, hp'.2]
      exact lookup2_storeInsert_self e d t.2.2 st0
    · have hfind : List.find? (fun t => t.1 = e && t.2.1 = d) (t :: rest) =
          List.find? (fun t => t.1 = e && t.2.1 = d) rest :=
        List.find?_cons_of_neg _ (by simpa using hp)
      rw [hfind]
      rcases hr : List.find? (fun t => t.1 = e && t.2.1 = d) rest with _ | t'
      · rw [hr]
        dsimp only
        apply lookup2_storeInsert_ne
        intro hcon
        apply hp
        rw [Bool.and_eq_true, decide_eq_true_eq, decide_eq_true_eq]
        exact ⟨hcon.1.symm, hcon.2.symm⟩
      · rw [hr]

end RoundtripLemmas

/-- C7: exporting any store satisfying the reachable-store invariant to the
tabular format and importing the file into a fresh empty store aborts
nowhere, skips nothing, and reproduces exactly the original record set —
every (employee, date) lookup agrees — with the returned count equal to the
original number of records. -/
theorem C7_export_import_roundtrip (st : Store) (hst : StoreInv st) :
    ∃ (st' : Store) (n : Nat),
      import_from_csv (export_to_csv st) [] = some (st', n) ∧
      (∀ e d, lookup2 e d st' = lookup2 e d st) ∧
      n = storeSize st := by
  have hperm := exportTriples_perm st
  have hvalid : ∀ t ∈ exportTriples st, 0 < t.1 ∧ isCanonicalDate t.2.1 = true ∧
      t.2.2 ∈ VALID_STATUSES := by
    intro t ht
    have hmem : t ∈ flatStore st := hperm.mem_iff.mp ht
    rcases mem_flatStore.mp hmem with ⟨q, hq, p, hp, rfl⟩
    have hqq := hst.1 q hq
    exact ⟨hqq.1, (hqq.2.2.2 p hp).1, (hqq.2.2.2 p hp).2⟩
  have hnd : ((exportTriples st).map (fun t => (t.1, t.2.1))).Nodup :=
    ((hperm.map _).nodup_iff).mpr (flatStore_pairs_nodup hst)
  refine ⟨foldStore (exportTriples st) [], (exportTriples st).length, ?_, ?_, ?_⟩
  · rw [export_rows_eq]
    unfold import_from_csv
    dsimp only
    rw [importGo_valid_triples (exportTriples st) [] 0 hvalid, Nat.zero_add]
  · intro e d
    rw [lookup2_foldStore (exportTriples st) [] e d hnd]
    rcases hlk : lookup2 e d st with _ | s
    · have hfind : List.find? (fun t => t.1 = e && t.2.1 = d) (exportTriples st) = none := by
        rw [List.find?_eq_none]
        intro t ht hpt
        rw [Bool.and_eq_true, decide_eq_true_eq, decide_eq_true_eq] at hpt
        have hmem : t ∈ flatStore st := hperm.mem_iff.mp ht
        obtain ⟨ta, td, ts⟩ := t
        obtain ⟨h1, h2⟩ := hpt
        have h1' : ta = e := h1
        have h2' : td = d := h2
        rw [h1', h2'] at hmem
        have hsome := (flatStore_mem_iff hst e d ts).mp hmem
        rw [hlk] at hsome
        exact absurd hsome (by simp)
      rw [hfind]
      dsimp only
      rfl
    · have hmem : (e, d, s) ∈ exportTriples st :=
        hperm.mem_iff.mpr ((flatStore_mem_iff hst e d s).mpr hlk)
      rcases hfind : List.find? (fun t => t.1 = e && t.2.1 = d) (exportTriples st)
        with _ | t'
      · rw [List.find?_eq_none] at hfind
        exact absurd (by simp :
            ((fun t : Int × String × String => t.1 = e && t.2.1 = d) (e, d, s)) = true)
          (hfind (e, d, s) hmem)
      · have hmem' : t' ∈ exportTriples st := List.mem_of_find?_eq_some hfind
        have hpt : t'.1 = e ∧ t'.2.1 = d := by
          have hps := List.find?_some hfind
          rw [Bool.and_eq_true, decide_eq_true_eq, decide_eq_true_eq] at hps
          exact hps
        have ht' : t' = (e, d, s) := by
          apply List.inj_on_of_nodup_map hnd hmem' hmem
          simp [hpt.1, hpt.2]
        rw [hfind]
        dsimp only
        rw [ht']
  · rw [hperm.length_eq, length_flatStore]

/-- Witness for C7: the round trip evaluated through the theorem at a
concrete two-employee store. -/
theorem C7_export_import_roundtrip_witness :
    ∃ (st' : Store) (n : Nat),
      import_from_csv (export_to_csv
        [(2, [("2026-01-02", "Absent"), ("2026-01-01", "Present")]),
         (1, [("2026-01-01", "Leave")])]) [] = some (st', n) ∧
      (∀ e d, lookup2 e d st' =
        lookup2 e d [(2, [("2026-01-02", "Absent"), ("2026-01-01", "Present")]),
          (1, [("2026-01-01", "Leave")])]) ∧
      n = storeSize [(2, [("2026-01-02", "Absent"), ("2026-01-01", "Present")]),
        (1, [("2026-01-01", "Leave")])] :=
  C7_export_import_roundtrip
    [(2, [("2026-01-02", "Absent"), ("2026-01-01", "Present")]),
     (1, [("2026-01-01", "Leave")])] (by decide)

end SmartAttendance
